import Mathlib

set_option maxRecDepth 100000

/-!
Verification of the response-assertion rewriting scripts of the repository
(`scripts/fix_test_responses.py` and `scripts/fix_handler_tests.py`).

Documents are modelled as `List Char`.  Python's `re.sub`, for the concrete
patterns used by these scripts, is modelled by a deterministic left-to-right
scan (`subAll`): at each position the pattern matcher is tried; on success the
matched text is replaced and scanning resumes after the match; otherwise the
character is kept and the scan moves one position right.  For the patterns at
hand every variable-width part (`\w+` or `\s+`) is immediately followed in
the pattern by a character outside the repeated class, so Python's greedy
backtracking engine agrees with this greedy no-backtracking scan, and
`re.sub`'s leftmost non-overlapping replacement agrees with `subAll`.

Character classes `\w` and `\s` are modelled over their ASCII ranges.
-/

namespace Rewriter

/-- Python regex `\w` (ASCII range): letters, digits and underscore. -/
def wchar (c : Char) : Bool := c.isAlphanum || c = '_'

/-- Python regex `\s` (ASCII range). -/
def wschar (c : Char) : Bool :=
  c = ' ' || c = '\t' || c = '\n' || c = '\r' || c = '\x0b' || c = '\x0c'

/-- A pattern matcher: given a document suffix, either fail, or return the
captured group together with the text remaining after the matched prefix. -/
def Matcher : Type := List Char → Option (List Char × List Char)

/-- A replacement template: builds the replacement text from the captured
group. -/
def Repl : Type := List Char → List Char

/-- Match a literal: if `p` is a prefix of `s`, return the remainder. -/
def dropPref (p s : List Char) : Option (List Char) :=
  if p.isPrefixOf s then some (s.drop p.length) else none

/-- The scanning engine, fuelled so that it is structurally recursive (the
fuel is irrelevant as soon as it is at least the length of the input, see
`subGo_fuel`). -/
def subGo (m : Matcher) (r : Repl) : Nat → List Char → List Char
  | 0, s => s
  | _ + 1, [] => []
  | fuel + 1, c :: cs =>
    match m (c :: cs) with
    | some (g, rest) => r g ++ subGo m r fuel rest
    | none => c :: subGo m r fuel cs

/-- `re.sub pattern repl s` : replace every (leftmost, non-overlapping)
match of `m` in `s` by its replacement. -/
def subAll (m : Matcher) (r : Repl) (s : List Char) : List Char :=
  subGo m r s.length s

/-- Whether the pattern matches anywhere in the document. -/
def hasMatch (m : Matcher) : List Char → Bool
  | [] => false
  | c :: cs => (m (c :: cs)).isSome || hasMatch m cs

/-- A matcher consumes at least one character of its input. -/
def Shrink (m : Matcher) : Prop :=
  ∀ s g rest, m s = some (g, rest) → rest.length < s.length

/-- Observable I/O events of a script run, in order. -/
inductive Ev where
  | out : List Char → Ev
  | readF : List Char → List Char → Ev
  | openFail : List Char → Ev
  | writeF : List Char → List Char → Ev
  deriving DecidableEq

/-- A well-behaved matcher/replacement pair: matches consume at least one
character (`shrink`) and are determined by the consumed prefix (`localize`);
no match starts inside a replacement block, whatever follows it (`guard`);
and a match that starts strictly before a replacement block never overlaps
it (`spill`). -/
structure MatcherSpec (m : Matcher) (r : Repl) : Prop where
  shrink : Shrink m
  localize : ∀ s g rest, m s = some (g, rest) →
    ∃ mt, s = mt ++ rest ∧ mt ≠ [] ∧ ∀ z, m (mt ++ z) = some (g, z)
  guard : ∀ s g rest, m s = some (g, rest) → ∀ t i, i < (r g).length →
    m ((r g ++ t).drop i) = none
  spill : ∀ s g rest, m s = some (g, rest) → ∀ a t g2 rest2, a ≠ [] →
    m (a ++ r g ++ t) = some (g2, rest2) →
    (a ++ r g ++ t).length - rest2.length ≤ a.length

/-- Localization property of a matcher, stated on its own (used for
cross-rule preservation). -/
def Localized (m : Matcher) : Prop :=
  ∀ s g rest, m s = some (g, rest) →
    ∃ mt, s = mt ++ rest ∧ mt ≠ [] ∧ ∀ z, m (mt ++ z) = some (g, z)

/-- Interaction of matcher `mR` with the replacement blocks produced by the
rule `(mS, rS)`: no `mR`-match starts inside such a block, and an `mR`-match
starting before the block never overlaps it. -/
structure CrossSpec (mR : Matcher) (mS : Matcher) (rS : Repl) : Prop where
  guardX : ∀ s g rest, mS s = some (g, rest) → ∀ t i, i < (rS g).length →
    mR ((rS g ++ t).drop i) = none
  spillX : ∀ s g rest, mS s = some (g, rest) → ∀ a t g2 rest2, a ≠ [] →
    mR (a ++ rS g ++ t) = some (g2, rest2) →
    (a ++ rS g ++ t).length - rest2.length ≤ a.length

end Rewriter

namespace FixTestResponses

open Rewriter

/-!
Embedding of `scripts/fix_test_responses.py`.

The function `fix_test_file` applies a single `re.sub` call, with pattern

  `assert\.Contains\(t, "(\w+)", response\["code"\]\)`

and a replacement consisting of four lines (the three continuation lines are
indented by a newline followed by four tab characters, exactly as in the
source's triple-quoted replacement string), the captured group `\1` being
re-inserted in the last line.
-/

/-- The literal part of the pattern before the captured group `(\w+)`. -/
def preC : List Char := "assert.Contains(t, \"".data

/-- The literal part of the pattern after the captured group. -/
def sufC : List Char := "\", response[\"code\"])".data

/-- Newline followed by the four hard-coded tabs of the replacement's
continuation lines. -/
def nl4 : List Char := "\n\t\t\t\t".data

def errLine1 : List Char := "assert.Equal(t, false, response[\"success\"])".data

def errLine2 : List Char :=
  "errorInfo, ok := response[\"error\"].(map[string]interface\x7b\x7d)".data

def errLine3 : List Char := "assert.True(t, ok, \"error should be a map\")".data

def eqOpen : List Char := "assert.Equal(t, \"".data

/-- The replacement text before the re-inserted group `\1`. -/
def fixedA : List Char :=
  errLine1 ++ nl4 ++ errLine2 ++ nl4 ++ errLine3 ++ nl4 ++ eqOpen

/-- The replacement text after the re-inserted group `\1`. -/
def fixedB : List Char := "\", errorInfo[\"code\"])".data

/-- The replacement template of pattern 1 (group `\1` re-inserted). -/
def replC : Repl := fun w => fixedA ++ (w ++ fixedB)

/-- The matcher of pattern 1: the literal `preC`, then a maximal nonempty
run of `\w` characters (greedy; no backtracking is ever needed because the
character after the group in the pattern is `"`, which is not a `\w`
character), then the literal `sufC`. -/
def matchC : Matcher := fun s =>
  match dropPref preC s with
  | none => none
  | some s1 =>
    let w := s1.takeWhile wchar
    if w = [] then none
    else
      match dropPref sufC (s1.drop w.length) with
      | none => none
      | some rest => some (w, rest)

/-- `fix_test_file` from the source: applies the single `re.sub` above.
(The source also defines `replace_error_message` — see below — but never
uses it; no second or third substitution is performed.) -/
def fix_test_file (content : List Char) : List Char :=
  subAll matchC replC content

/-- The dead helper `replace_error_message` of the source, which builds the
replacement for a (never-installed) pattern 2 from an indentation group, a
value group and a field group.  It is defined but never applied. -/
def replace_error_message (indent value field : List Char) : List Char :=
  indent ++ errLine1 ++ ('\n' :: indent) ++ errLine2 ++ ('\n' :: indent) ++
    errLine3 ++ ('\n' :: indent) ++ eqOpen ++ value ++
    "\", errorInfo[\"".data ++ field ++ "\"])".data

/-- Check used in `no_preC_at`: if dropping `k` characters of `preC` leaves
a word character followed by a tail, that tail is not a prefix of `fixedB`. -/
def chkC1 (k : Nat) : Bool :=
  match preC.drop k with
  | [] => true
  | c :: p3 => !(wchar c) || !(p3.isPrefixOf fixedB)

/-- The old-format idiom recognized by pattern 1:
`assert.Contains(t, "<lit>", response["code"])`. -/
def containsCodeAssert (lit : List Char) : List Char :=
  preC ++ (lit ++ sufC)

/-- The usage message printed by `main` when the file argument is missing. -/
def usage : List Char := "Usage: python3 fix_test_responses.py <test_file>".data

/-- Trace model of `main` of `fix_test_responses.py`, from the statement
order of the source: check `len(sys.argv)`, then open and read the file,
then compute the rewrite in memory, then open the file for writing and
write the fully computed result, then print the confirmation.  `argv`
includes the program name; `disk = none` models a failing open. -/
def mainRun (argv : List (List Char)) (disk : Option (List Char)) :
    List Ev × Nat :=
  if argv.length ≠ 2 then ([Ev.out usage], 1)
  else
    match disk with
    | none => ([Ev.openFail (argv.getD 1 [])], 1)
    | some content =>
        ([Ev.readF (argv.getD 1 []) content,
          Ev.writeF (argv.getD 1 []) (fix_test_file content),
          Ev.out (("Fixed ".data) ++ argv.getD 1 [])], 0)

end FixTestResponses

namespace FixHandlerTests

open Rewriter

/-!
Embedding of `scripts/fix_handler_tests.py`.

`main` applies two `re.sub` rules in order (with `re.DOTALL`, which is
irrelevant as the patterns contain no dot metacharacter).  Each pattern is a
captured context block — six literal segments separated by `\s+` runs — of
which the first five literals plus the separating whitespace form group 1,
followed by a final literal assertion; the replacement is `\1` followed by
the four new-format lines (with literal `\n` and `\t` escapes expanded by
`re.sub`'s template processing).
-/

/-- Second literal segment (shared by both patterns). -/
def L1 : List Char :=
  "checkResponse: func(t *testing.T, w *httptest.ResponseRecorder) \x7b".data

/-- Third literal segment (shared). -/
def L2 : List Char := "var response map[string]interface\x7b\x7d".data

/-- Fourth literal segment (shared). -/
def L3 : List Char := "err := json.Unmarshal(w.Body.Bytes(), &response)".data

/-- Fifth literal segment (shared). -/
def L4 : List Char := "assert.NoError(t, err)".data

/-- Opening literal of the first pattern. -/
def L0A : List Char := "expectedStatus: http.StatusConflict,".data

/-- Final literal of the first pattern. -/
def L5A : List Char :=
  "assert.Equal(t, \"Email already exists\", response[\"message\"])".data

/-- Opening literal of the second pattern. -/
def L0B : List Char := "expectedStatus: http.StatusInternalServerError,".data

/-- Final literal of the second pattern. -/
def L5B : List Char :=
  "assert.Equal(t, \"database connection error\", response[\"details\"])".data

/-- The text inserted after group 1 by the first rule. -/
def NA : List Char :=
  FixTestResponses.errLine1 ++ FixTestResponses.nl4 ++
    FixTestResponses.errLine2 ++ FixTestResponses.nl4 ++
    FixTestResponses.errLine3 ++ FixTestResponses.nl4 ++
    "assert.Equal(t, \"Email already exists\", errorInfo[\"message\"])".data

/-- The text inserted after group 1 by the second rule. -/
def NB : List Char :=
  FixTestResponses.errLine1 ++ FixTestResponses.nl4 ++
    FixTestResponses.errLine2 ++ FixTestResponses.nl4 ++
    FixTestResponses.errLine3 ++ FixTestResponses.nl4 ++
    "assert.Equal(t, \"database connection error\", errorInfo[\"details\"])".data

/-- Match `\s+` followed by the literal `L`; returns the whitespace run and
the text after the literal.  Greedy matching of `\s+` agrees with the regex
engine because each following literal starts with a non-whitespace
character. -/
def gapThen (L s : List Char) : Option (List Char × List Char) :=
  let w := s.takeWhile wschar
  if w = [] then none
  else
    match dropPref L (s.drop w.length) with
    | none => none
    | some s2 => some (w, s2)

/-- The matcher of a handler pattern with opening literal `l0` and closing
literal `l5`: `l0 \s+ L1 \s+ L2 \s+ L3 \s+ L4 \s+ l5`; the captured group 1
is everything up to and including the whitespace before `l5`. -/
def matchH (l0 l5 : List Char) : Matcher := fun s =>
  (dropPref l0 s).bind fun s1 =>
  (gapThen L1 s1).bind fun p1 =>
  (gapThen L2 p1.2).bind fun p2 =>
  (gapThen L3 p2.2).bind fun p3 =>
  (gapThen L4 p3.2).bind fun p4 =>
  (gapThen l5 p4.2).bind fun p5 =>
  some (l0 ++ (p1.1 ++ (L1 ++ (p2.1 ++ (L2 ++ (p3.1 ++ (L3 ++ (p4.1 ++
    (L4 ++ p5.1)))))))), p5.2)

/-- Whether the first character of a list exists and is not whitespace. -/
def headNW (L : List Char) : Bool :=
  match L with
  | [] => false
  | c :: _ => !(wschar c)

/-- The group structure produced by a handler pattern: five nonempty
whitespace runs separating the literals. -/
def IsPreamble (l0 g : List Char) : Prop :=
  ∃ w1 w2 w3 w4 w5 : List Char,
    (w1 ≠ [] ∧ ∀ c ∈ w1, wschar c) ∧ (w2 ≠ [] ∧ ∀ c ∈ w2, wschar c) ∧
    (w3 ≠ [] ∧ ∀ c ∈ w3, wschar c) ∧ (w4 ≠ [] ∧ ∀ c ∈ w4, wschar c) ∧
    (w5 ≠ [] ∧ ∀ c ∈ w5, wschar c) ∧
    g = l0 ++ (w1 ++ (L1 ++ (w2 ++ (L2 ++ (w3 ++ (L3 ++ (w4 ++ (L4 ++ w5))))))))

/-- The whitespace-free needle common to both opening literals. -/
def n0 : List Char := "expectedStatus:".data

/-- Decidable non-overlap of a match piece `P` (from offset `k0` on) with
the opening literal of a replacement block. -/
def okPiece (P Sl0 : List Char) (k0 : Nat) : Prop :=
  ∀ k, k < P.length → k0 ≤ k → ((P.drop k).isPrefixOf Sl0) = false ∧
    (Sl0.isPrefixOf (P.drop k)) = false

instance (P Sl0 : List Char) (k0 : Nat) : Decidable (okPiece P Sl0 k0) := by
  unfold okPiece
  infer_instance

/-- The matcher of the first rule (StatusConflict / "Email already exists"). -/
def mA : Matcher := matchH L0A L5A

/-- The replacement of the first rule: group 1 plus the new-format lines. -/
def rA : Repl := fun g => g ++ NA

/-- The matcher of the second rule (StatusInternalServerError /
"database connection error"). -/
def mB : Matcher := matchH L0B L5B

/-- The replacement of the second rule. -/
def rB : Repl := fun g => g ++ NB

/-- The text transformation performed by `main` of
`fix_handler_tests.py`: the two `re.sub` rules applied in order. -/
def applyRules (content : List Char) : List Char :=
  subAll mB rB (subAll mA rA content)

/-- The hard-coded file path of `fix_handler_tests.py`. -/
def filepath : List Char :=
  "/Users/vahid.vahedi/grab/go-rest-api-boilerplate/internal/user/handler_test.go".data

/-- Trace model of `main` of `fix_handler_tests.py`, from the statement
order of the source: open and read the hard-coded path, apply the two
rules in memory, then open the path for writing and write the fully
computed result, then print the confirmation. -/
def mainRun (disk : Option (List Char)) : List Ev × Nat :=
  match disk with
  | none => ([Ev.openFail filepath], 1)
  | some content =>
      ([Ev.readF filepath content,
        Ev.writeF filepath (applyRules content),
        Ev.out (("Fixed ".data) ++ filepath)], 0)

end FixHandlerTests

namespace Claims

open Rewriter

/-- Single-newline gap used in the concrete documents below. -/
def nlG : List Char := "\n".data

/-- A `StatusConflict` context preamble with single-newline gaps, in the
exact group shape captured by the first handler rule. -/
def preGA : List Char :=
  FixHandlerTests.L0A ++ (nlG ++ (FixHandlerTests.L1 ++ (nlG ++
    (FixHandlerTests.L2 ++ (nlG ++ (FixHandlerTests.L3 ++ (nlG ++
      (FixHandlerTests.L4 ++ nlG))))))))

/-- The old-format top-level message assertion with literal `lit`. -/
def msgAssert (lit : List Char) : List Char :=
  ("assert.Equal(t, \"".data) ++ (lit ++ ("\", response[\"message\"])".data))

def litE : List Char := "Email already exists".data

def litU : List Char := "User not found".data

def litI : List Char := "Invalid input".data

/-- `occursIn p s` holds exactly when `p` occurs as a contiguous substring
of `s`. -/
def occursIn (p : List Char) : List Char → Bool
  | [] => p.isPrefixOf []
  | c :: cs => p.isPrefixOf (c :: cs) || occursIn p cs

/-- The tail of the three-block document: everything after the first
block's old-format assertion.  The second and third blocks carry the
literals `User not found` and `Invalid input`. -/
def rest1C5 : List Char :=
  ("\nBBB\n".data) ++ (preGA ++ (msgAssert litU ++ (("\nCCC\n".data) ++
    (preGA ++ (msgAssert litI ++ nlG)))))

/-- A document with three separate, non-overlapping error-message-check
blocks, each a full status/decode preamble followed by an old-format
message assertion with a distinct literal (`Email already exists`,
`User not found`, `Invalid input`). -/
def docC5 : List Char :=
  ("AAA\n".data) ++ (preGA ++ (FixHandlerTests.L5A ++ rest1C5))

/-- What the handler script actually produces on `docC5`: only the first
block (whose assertion matches the hard-coded literal of rule 1) is
rewritten; the other two blocks survive verbatim. -/
def outC5 : List Char :=
  ("AAA\n".data) ++ ((preGA ++ FixHandlerTests.NA) ++ rest1C5)

end Claims

/-- A document whose single pattern-1 occurrence sits on a line indented
with one tab. -/
def indocC6 : List Char :=
  ("\n\t".data) ++
    (FixTestResponses.containsCodeAssert ("NOT_FOUND".data) ++ ("\n".data))

namespace Rewriter

theorem dropPref_eq_some {p s t : List Char} :
    dropPref p s = some t ↔ s = p ++ t := by
  unfold dropPref
  constructor
  · intro h
    by_cases hp : p.isPrefixOf s
    · rw [if_pos hp] at h
      rcases List.isPrefixOf_iff_prefix.mp hp with ⟨u, rfl⟩
      simp only [Option.some.injEq] at h
      rw [← h, List.drop_left]
    · rw [if_neg hp] at h; cases h
  · rintro rfl
    have hp : p.isPrefixOf (p ++ t) := List.isPrefixOf_iff_prefix.mpr ⟨t, rfl⟩
    rw [if_pos hp, List.drop_left]

theorem dropPref_self (p t : List Char) : dropPref p (p ++ t) = some t :=
  dropPref_eq_some.mpr rfl

theorem subGo_fuel {m : Matcher} {r : Repl} (hm : Shrink m) :
    ∀ n fuel fuel' s, s.length ≤ n → s.length ≤ fuel → s.length ≤ fuel' →
      subGo m r fuel s = subGo m r fuel' s := by
  intro n
  induction n with
  | zero =>
    intro fuel fuel' s hn _ _
    have : s = [] := List.eq_nil_of_length_eq_zero (Nat.le_zero.mp hn)
    subst this
    cases fuel <;> cases fuel' <;> rfl
  | succ n ih =>
    intro fuel fuel' s hn hf hf'
    match s with
    | [] => cases fuel <;> cases fuel' <;> rfl
    | c :: cs =>
      match fuel, fuel' with
      | f + 1, f' + 1 =>
        show (match m (c :: cs) with
              | some (g, rest) => r g ++ subGo m r f rest
              | none => c :: subGo m r f cs) =
             (match m (c :: cs) with
              | some (g, rest) => r g ++ subGo m r f' rest
              | none => c :: subGo m r f' cs)
        cases hmc : m (c :: cs) with
        | some p =>
          have hlt := hm _ _ _ hmc
          have hr : p.2.length ≤ n := by
            have := Nat.lt_of_lt_of_le hlt hn
            omega
          have h1 : p.2.length ≤ f := by
            have := Nat.lt_of_lt_of_le hlt hf
            omega
          have h2 : p.2.length ≤ f' := by
            have := Nat.lt_of_lt_of_le hlt hf'
            omega
          simp only [ih f f' p.2 hr h1 h2]
        | none =>
          have hc : cs.length ≤ n := by
            simp only [List.length_cons] at hn; omega
          have h1 : cs.length ≤ f := by
            simp only [List.length_cons] at hf; omega
          have h2 : cs.length ≤ f' := by
            simp only [List.length_cons] at hf'; omega
          simp only [ih f f' cs hc h1 h2]

theorem subAll_nil (m : Matcher) (r : Repl) : subAll m r [] = [] := rfl

theorem subAll_cons_none {m : Matcher} {r : Repl} {c : Char} {cs : List Char}
    (h : m (c :: cs) = none) :
    subAll m r (c :: cs) = c :: subAll m r cs := by
  show subGo m r (cs.length + 1) (c :: cs) = c :: subGo m r cs.length cs
  show (match m (c :: cs) with
        | some (g, rest) => r g ++ subGo m r cs.length rest
        | none => c :: subGo m r cs.length cs) = c :: subGo m r cs.length cs
  rw [h]

theorem subAll_cons_some {m : Matcher} {r : Repl} (hm : Shrink m)
    {c : Char} {cs g rest : List Char} (h : m (c :: cs) = some (g, rest)) :
    subAll m r (c :: cs) = r g ++ subAll m r rest := by
  show subGo m r (cs.length + 1) (c :: cs) = r g ++ subGo m r rest.length rest
  have step : subGo m r (cs.length + 1) (c :: cs) =
      r g ++ subGo m r cs.length rest := by
    show (match m (c :: cs) with
          | some (g, rest) => r g ++ subGo m r cs.length rest
          | none => c :: subGo m r cs.length cs) =
         r g ++ subGo m r cs.length rest
    rw [h]
  rw [step]
  have hlt := hm _ _ _ h
  simp only [List.length_cons] at hlt
  have := subGo_fuel (m := m) (r := r) hm rest.length cs.length rest.length rest
    (Nat.le_refl _) (by omega) (Nat.le_refl _)
  rw [this]

theorem hasMatch_cons_eq_false {m : Matcher} {c : Char} {cs : List Char} :
    hasMatch m (c :: cs) = false ↔ m (c :: cs) = none ∧ hasMatch m cs = false := by
  cases hmc : m (c :: cs) <;> simp [hasMatch, hmc]

theorem hasMatch_eq_false_iff {m : Matcher} {s : List Char} :
    hasMatch m s = false ↔ ∀ i, i < s.length → m (s.drop i) = none := by
  induction s with
  | nil => simp [hasMatch]
  | cons c cs ih =>
    rw [hasMatch_cons_eq_false, ih]
    constructor
    · rintro ⟨h0, hrest⟩ i hi
      match i with
      | 0 => exact h0
      | j + 1 =>
        simp only [List.length_cons] at hi
        simpa using hrest j (by omega)
    · intro h
      refine ⟨?_, fun i hi => ?_⟩
      · simpa using h 0 (by simp)
      · simpa using h (i + 1) (by simp; omega)

theorem hasMatch_false_of_append_right {m : Matcher} {u v : List Char}
    (h : hasMatch m (u ++ v) = false) : hasMatch m v = false := by
  rw [hasMatch_eq_false_iff] at h ⊢
  intro i hi
  have := h (u.length + i) (by simp; omega)
  rwa [List.drop_append] at this

theorem subAll_no_match {m : Matcher} {r : Repl} :
    ∀ {s : List Char}, hasMatch m s = false → subAll m r s = s := by
  intro s
  induction s with
  | nil => intro _; rfl
  | cons c cs ih =>
    intro h
    rw [hasMatch_cons_eq_false] at h
    rw [subAll_cons_none h.1, ih h.2]

theorem subAll_append {m : Matcher} {r : Repl} :
    ∀ {u v : List Char}, (∀ i, i < u.length → m ((u ++ v).drop i) = none) →
      subAll m r (u ++ v) = u ++ subAll m r v := by
  intro u
  induction u with
  | nil => intro v _; rfl
  | cons c u' ih =>
    intro v h
    have h0 : m (c :: (u' ++ v)) = none := h 0 (by simp)
    rw [List.cons_append, subAll_cons_none h0]
    have : subAll m r (u' ++ v) = u' ++ subAll m r v := by
      apply ih
      intro i hi
      have := h (i + 1) (by simp; omega)
      simpa using this
    rw [this, List.cons_append]

theorem subAll_matched {m : Matcher} {r : Repl} (hm : Shrink m)
    {v g rest : List Char} (h : m v = some (g, rest)) (hv : v ≠ []) :
    subAll m r v = r g ++ subAll m r rest := by
  match v, hv with
  | c :: cs, _ => exact subAll_cons_some hm h

/-- The leftmost-match decomposition of a document in which the pattern
matches somewhere. -/
theorem exists_first_match {m : Matcher} {s : List Char}
    (h : hasMatch m s = true) :
    ∃ u v g rest, s = u ++ v ∧ (∀ i, i < u.length → m (s.drop i) = none) ∧
      m v = some (g, rest) ∧ v ≠ [] := by
  induction s with
  | nil => cases h
  | cons c cs ih =>
    cases hmc : m (c :: cs) with
    | some p =>
      exact ⟨[], c :: cs, p.1, p.2, by simp, by simp, by rw [hmc], by simp⟩
    | none =>
      have hcs : hasMatch m cs = true := by
        simpa [hasMatch, hmc] using h
      rcases ih hcs with ⟨u, v, g, rest, heq, hnone, hmv, hv⟩
      refine ⟨c :: u, v, g, rest, by rw [List.cons_append, heq], ?_, hmv, hv⟩
      intro i hi
      match i with
      | 0 => exact hmc
      | j + 1 =>
        simp only [List.length_cons] at hi
        simpa using hnone j (by omega)

theorem hasMatch_append_false_of {m : Matcher} {x y : List Char}
    (h1 : ∀ i, i < x.length → m ((x ++ y).drop i) = none)
    (h2 : hasMatch m y = false) : hasMatch m (x ++ y) = false := by
  rw [hasMatch_eq_false_iff]
  intro i hi
  by_cases hx : i < x.length
  · exact h1 i hx
  · have hd : (x ++ y).drop i = y.drop (i - x.length) := by
      have h' : i = x.length + (i - x.length) := by omega
      rw [h', List.drop_append]
      congr 1
      omega
    rw [hd]
    exact hasMatch_eq_false_iff.mp h2 _ (by
      simp only [List.length_append] at hi
      omega)

theorem prefix_cancel {a b c : List Char} (h : a ++ b <+: a ++ c) :
    b <+: c := by
  rcases h with ⟨t, ht⟩
  rw [List.append_assoc] at ht
  exact ⟨t, List.append_cancel_left ht⟩

/-- Splitting an equality of concatenations at the boundary. -/
theorem split_at {x y p q : List Char} (h : x ++ y = p ++ q) :
    (∃ z, p = x ++ z ∧ y = z ++ q) ∨ (∃ z, x = p ++ z ∧ q = z ++ y) := by
  rcases List.append_eq_append_iff.mp h with ⟨a', h1, h2⟩ | ⟨c', h1, h2⟩
  · exact Or.inl ⟨a', h1, h2⟩
  · exact Or.inr ⟨c', h1, h2⟩

/-- A prefix of a concatenation is a prefix of the first part or extends it. -/
theorem prefix_split {p x y : List Char} (h : p <+: x ++ y) :
    p <+: x ∨ x <+: p := by
  rcases h with ⟨t, ht⟩
  rcases split_at ht.symm with ⟨z, h1, _⟩ | ⟨z, h1, _⟩
  · exact Or.inr ⟨z, h1.symm⟩
  · exact Or.inl ⟨z, h1.symm⟩

theorem not_hasMatch_of_zones {m : Matcher} {u w T : List Char}
    (h1 : ∀ i, i < u.length → m ((u ++ (w ++ T)).drop i) = none)
    (h2 : ∀ i, i < w.length → m ((w ++ T).drop i) = none)
    (h3 : hasMatch m T = false) :
    hasMatch m (u ++ (w ++ T)) = false := by
  rw [hasMatch_eq_false_iff]
  intro i hi
  by_cases hu : i < u.length
  · exact h1 i hu
  · have hdrop : (u ++ (w ++ T)).drop i = (w ++ T).drop (i - u.length) := by
      have h' : i = u.length + (i - u.length) := by omega
      rw [h', List.drop_append]
      congr 1
      omega
    by_cases hw : i - u.length < w.length
    · rw [hdrop]
      exact h2 _ hw
    · have hdrop2 : (w ++ T).drop (i - u.length) =
          T.drop (i - u.length - w.length) := by
        have h' : i - u.length = w.length + (i - u.length - w.length) := by omega
        rw [h', List.drop_append]
        congr 1
        omega
      rw [hdrop, hdrop2]
      exact (hasMatch_eq_false_iff.mp h3) _ (by
        simp only [List.length_append] at hi
        omega)

/-- In the output of `subAll`, the pattern no longer matches anywhere. -/
theorem hasMatch_subAll {m : Matcher} {r : Repl} (S : MatcherSpec m r) :
    ∀ s, hasMatch m (subAll m r s) = false := by
  suffices h : ∀ n s, s.length ≤ n → hasMatch m (subAll m r s) = false by
    intro s; exact h s.length s (Nat.le_refl _)
  intro n
  induction n with
  | zero =>
    intro s hs
    have : s = [] := List.eq_nil_of_length_eq_zero (Nat.le_zero.mp hs)
    subst this
    rfl
  | succ n ih =>
    intro s hs
    cases hhas : hasMatch m s with
    | false => rw [subAll_no_match hhas]; exact hhas
    | true =>
      rcases exists_first_match hhas with ⟨u, v, g, rest, heq, hnone, hmv, hv⟩
      have hsubv : subAll m r v = r g ++ subAll m r rest :=
        subAll_matched S.shrink hmv hv
      have hsub : subAll m r s = u ++ (r g ++ subAll m r rest) := by
        rw [heq, subAll_append, hsubv]
        intro i hi
        have := hnone i hi
        rwa [heq] at this
      rw [hsub]
      rcases S.localize _ _ _ hmv with ⟨mt, hvmt, hmtne, hloc⟩
      have hrest_len : rest.length ≤ n := by
        have h1 : rest.length < v.length := S.shrink _ _ _ hmv
        have h2 : v.length ≤ s.length := by
          rw [heq]; simp
        omega
      have hT : hasMatch m (subAll m r rest) = false := ih rest hrest_len
      apply not_hasMatch_of_zones _ _ hT
      · -- zone 1: before the replacement block
        intro i hi
        cases hbad : m ((u ++ (r g ++ subAll m r rest)).drop i) with
        | none => rfl
        | some p =>
          exfalso
          obtain ⟨g2, rest2⟩ := p
          have hdrop : (u ++ (r g ++ subAll m r rest)).drop i =
              u.drop i ++ (r g ++ subAll m r rest) :=
            List.drop_append_of_le_length (Nat.le_of_lt hi)
          rw [hdrop, ← List.append_assoc] at hbad
          have hane : u.drop i ≠ [] := by
            intro hnil
            have := congrArg List.length hnil
            simp at this
            omega
          have hlen := S.spill _ _ _ hmv _ _ _ _ hane hbad
          rcases S.localize _ _ _ hbad with ⟨mt2, hmt2eq, _, hloc2⟩
          rw [List.append_assoc] at hmt2eq
          -- mt2 is contained in u.drop i
          have hmtlen : mt2.length ≤ (u.drop i).length := by
            have hl := congrArg List.length hmt2eq
            simp only [List.length_append] at hl
            simp only [List.length_append] at hlen
            omega
          have hsplit : ∃ z2, u.drop i = mt2 ++ z2 := by
            rcases split_at hmt2eq with ⟨z, hz1, _⟩ | ⟨z, hz1, _⟩
            · have hzlen : z = [] := by
                have := congrArg List.length hz1
                simp only [List.length_append] at this
                exact List.eq_nil_of_length_eq_zero (by omega)
              subst hzlen
              exact ⟨[], by rw [List.append_nil] at hz1 ⊢; exact hz1.symm⟩
            · exact ⟨z, hz1⟩
          rcases hsplit with ⟨z2, hz2⟩
          have hmatch_orig : m (s.drop i) = some (g2, z2 ++ v) := by
            have hsdrop : s.drop i = u.drop i ++ v := by
              rw [heq]
              exact List.drop_append_of_le_length (Nat.le_of_lt hi)
            rw [hsdrop, hz2, List.append_assoc]
            exact hloc2 _
          have := hnone i hi
          rw [this] at hmatch_orig
          cases hmatch_orig
      · -- zone 2: inside the replacement block
        intro i hi
        exact S.guard _ _ _ hmv _ i hi

theorem subAll_idem {m : Matcher} {r : Repl} (S : MatcherSpec m r)
    (s : List Char) : subAll m r (subAll m r s) = subAll m r s :=
  subAll_no_match (hasMatch_subAll S s)

/-- If `mR` does not match anywhere in `s`, it still does not match anywhere
after rewriting `s` with another rule `(mS, rS)`. -/
theorem hasMatch_subAll_other {mR : Matcher} {mS : Matcher} {rS : Repl}
    (SS : MatcherSpec mS rS) (locR : Localized mR)
    (X : CrossSpec mR mS rS) :
    ∀ s, hasMatch mR s = false → hasMatch mR (subAll mS rS s) = false := by
  suffices h : ∀ n s, s.length ≤ n → hasMatch mR s = false →
      hasMatch mR (subAll mS rS s) = false by
    intro s; exact h s.length s (Nat.le_refl _)
  intro n
  induction n with
  | zero =>
    intro s hs _
    have : s = [] := List.eq_nil_of_length_eq_zero (Nat.le_zero.mp hs)
    subst this
    rfl
  | succ n ih =>
    intro s hs hR
    cases hhas : hasMatch mS s with
    | false => rw [subAll_no_match hhas]; exact hR
    | true =>
      rcases exists_first_match hhas with ⟨u, v, g, rest, heq, hnone, hmv, hv⟩
      have hsubv : subAll mS rS v = rS g ++ subAll mS rS rest :=
        subAll_matched SS.shrink hmv hv
      have hsub : subAll mS rS s = u ++ (rS g ++ subAll mS rS rest) := by
        rw [heq, subAll_append, hsubv]
        intro i hi
        have := hnone i hi
        rwa [heq] at this
      rw [hsub]
      rcases SS.localize _ _ _ hmv with ⟨mt, hvmt, _, _⟩
      have hrest_len : rest.length ≤ n := by
        have h1 : rest.length < v.length := SS.shrink _ _ _ hmv
        have h2 : v.length ≤ s.length := by
          rw [heq]; simp
        omega
      have hRrest : hasMatch mR rest = false := by
        apply hasMatch_false_of_append_right (u := u ++ mt)
        rw [List.append_assoc, ← hvmt, ← heq]
        exact hR
      have hT : hasMatch mR (subAll mS rS rest) = false := ih rest hrest_len hRrest
      apply not_hasMatch_of_zones _ _ hT
      · -- zone 1: before the replacement block
        intro i hi
        cases hbad : mR ((u ++ (rS g ++ subAll mS rS rest)).drop i) with
        | none => rfl
        | some p =>
          exfalso
          obtain ⟨g2, rest2⟩ := p
          have hdrop : (u ++ (rS g ++ subAll mS rS rest)).drop i =
              u.drop i ++ (rS g ++ subAll mS rS rest) :=
            List.drop_append_of_le_length (Nat.le_of_lt hi)
          rw [hdrop, ← List.append_assoc] at hbad
          have hane : u.drop i ≠ [] := by
            intro hnil
            have := congrArg List.length hnil
            simp at this
            omega
          have hlen := X.spillX _ _ _ hmv _ _ _ _ hane hbad
          rcases locR _ _ _ hbad with ⟨mt2, hmt2eq, _, hloc2⟩
          rw [List.append_assoc] at hmt2eq
          have hmtlen : mt2.length ≤ (u.drop i).length := by
            have hl := congrArg List.length hmt2eq
            simp only [List.length_append] at hl
            simp only [List.length_append] at hlen
            omega
          have hsplit : ∃ z2, u.drop i = mt2 ++ z2 := by
            rcases split_at hmt2eq with ⟨z, hz1, _⟩ | ⟨z, hz1, _⟩
            · have hzlen : z = [] := by
                have := congrArg List.length hz1
                simp only [List.length_append] at this
                exact List.eq_nil_of_length_eq_zero (by omega)
              subst hzlen
              exact ⟨[], by rw [List.append_nil] at hz1 ⊢; exact hz1.symm⟩
            · exact ⟨z, hz1⟩
          rcases hsplit with ⟨z2, hz2⟩
          have hmatch_orig : mR (s.drop i) = some (g2, z2 ++ v) := by
            have hsdrop : s.drop i = u.drop i ++ v := by
              rw [heq]
              exact List.drop_append_of_le_length (Nat.le_of_lt hi)
            rw [hsdrop, hz2, List.append_assoc]
            exact hloc2 _
          have hilt : i < s.length := by
            rw [heq]
            simp only [List.length_append]
            omega
          have := hasMatch_eq_false_iff.mp hR i hilt
          rw [this] at hmatch_orig
          cases hmatch_orig
      · -- zone 2: inside the replacement block
        intro i hi
        exact X.guardX _ _ _ hmv _ i hi

/-- Idempotence of applying two rules in sequence. -/
theorem subAll_comp_idem {mA : Matcher} {rA : Repl} {mB : Matcher} {rB : Repl}
    (SA : MatcherSpec mA rA) (SB : MatcherSpec mB rB)
    (XAB : CrossSpec mA mB rB) (s : List Char) :
    subAll mB rB (subAll mA rA (subAll mB rB (subAll mA rA s))) =
      subAll mB rB (subAll mA rA s) := by
  have h1 : hasMatch mA (subAll mA rA s) = false := hasMatch_subAll SA s
  have h2 : hasMatch mA (subAll mB rB (subAll mA rA s)) = false :=
    hasMatch_subAll_other SB SA.localize XAB _ h1
  rw [subAll_no_match h2]
  exact subAll_idem SB _

end Rewriter

namespace FixTestResponses

open Rewriter

theorem drop_length_takeWhile (p : Char → Bool) (l : List Char) :
    l.drop (l.takeWhile p).length = l.dropWhile p := by
  induction l with
  | nil => rfl
  | cons c cs ih =>
    by_cases h : p c
    · rw [List.takeWhile_cons_of_pos h, List.dropWhile_cons_of_pos h]
      simpa using ih
    · rw [List.takeWhile_cons_of_neg h, List.dropWhile_cons_of_neg h]
      rfl

theorem sufC_cons : sufC = '"' :: ", response[\"code\"])".data := rfl

theorem wchar_quote : wchar '"' = false := rfl

/-- Characterization of the pattern-1 matcher. -/
theorem matchC_eq_some {s w rest : List Char} :
    matchC s = some (w, rest) ↔
      w ≠ [] ∧ (∀ c ∈ w, wchar c) ∧ s = preC ++ (w ++ (sufC ++ rest)) := by
  constructor
  · intro h
    unfold matchC at h
    cases h1 : dropPref preC s with
    | none => rw [h1] at h; cases h
    | some s1 =>
      rw [h1] at h
      simp only at h
      by_cases hw : s1.takeWhile wchar = []
      · rw [if_pos hw] at h; cases h
      · rw [if_neg hw] at h
        cases h2 : dropPref sufC (s1.drop (s1.takeWhile wchar).length) with
        | none => rw [h2] at h; cases h
        | some rest0 =>
          rw [h2] at h
          simp only [Option.some.injEq, Prod.mk.injEq] at h
          obtain ⟨hww, hrr⟩ := h
          subst hww
          subst hrr
          refine ⟨hw, fun c hc => List.mem_takeWhile_imp hc, ?_⟩
          have hs : s = preC ++ s1 := dropPref_eq_some.mp h1
          rw [drop_length_takeWhile] at h2
          have h3 : s1.dropWhile wchar = sufC ++ rest0 :=
            dropPref_eq_some.mp h2
          have hs1 : s1 = s1.takeWhile wchar ++ (sufC ++ rest0) := by
            conv_lhs => rw [← List.takeWhile_append_dropWhile (p := wchar)
              (l := s1)]
            rw [h3]
          rw [hs]
          exact congrArg _ hs1
  · rintro ⟨hw, hwc, rfl⟩
    unfold matchC
    rw [dropPref_self]
    simp only
    have htw : (w ++ (sufC ++ rest)).takeWhile wchar = w := by
      rw [List.takeWhile_append_of_pos hwc, sufC_cons, List.cons_append,
        List.takeWhile_cons_of_neg (by rw [wchar_quote]; simp),
        List.append_nil]
    rw [htw, if_neg hw, List.drop_left, dropPref_self]

theorem matchC_shrink : Shrink matchC := by
  intro s g rest h
  rcases matchC_eq_some.mp h with ⟨_, _, rfl⟩
  simp only [List.length_append]
  have : 0 < preC.length := by decide
  omega

theorem matchC_localized : Localized matchC := by
  intro s g rest h
  rcases matchC_eq_some.mp h with ⟨hg, hgc, rfl⟩
  refine ⟨preC ++ (g ++ sufC), by simp, by simp [preC], fun z => ?_⟩
  apply matchC_eq_some.mpr
  exact ⟨hg, hgc, by simp⟩

theorem bool_eq_contra {x : Bool} (h1 : x = true) (h2 : x = false) : False :=
  Bool.noConfusion (h1.symm.trans h2)

theorem pfx_false {a b : List Char} (h : a.isPrefixOf b = false)
    (hp : a <+: b) : False :=
  bool_eq_contra (List.isPrefixOf_iff_prefix.mpr hp) h

/-- Peel a prefix relation along a known left factor: the candidate prefix
is either swallowed by the factor or extends it. -/
theorem prefix_peel {p x y : List Char} (h : p <+: x ++ y) :
    p <+: x ∨ ∃ p2, p = x ++ p2 ∧ p2 <+: y := by
  rcases prefix_split h with h1 | h1
  · exact Or.inl h1
  · rcases h1 with ⟨p2, hp2⟩
    refine Or.inr ⟨p2, hp2.symm, ?_⟩
    apply prefix_cancel (a := x)
    rw [hp2]
    exact h

theorem gdC1 : ∀ i, i < fixedA.length → (preC.isPrefixOf (fixedA.drop i)) = false := by decide

theorem gdC2 : ∀ k, k < 20 → chkC1 k = true := by decide

theorem gdC3 : ∀ j, j < 20 → '"' ∈ preC.drop j := by decide

theorem gdC4 : ∀ k, k < 21 → 7 ≤ k → ((preC.take k).all wchar) = false := by decide

theorem gdC5 : ∀ k, k < 7 → 1 ≤ k → ((preC.drop k).isPrefixOf fixedB) = false := by decide

theorem gdC7 : ∀ d, d < fixedB.length → (preC.isPrefixOf (fixedB.drop d)) = false := by decide

theorem gdC8 : ∀ d, d < fixedB.length → ((fixedB.drop d).isPrefixOf preC) = false := by decide

theorem wchar_dot : wchar '.' = false := by decide

theorem dot_mem_preC : '.' ∈ preC := by decide

theorem preC_len : preC.length = 20 := by decide

theorem sufC_len : sufC.length = 20 := by decide

theorem fixedB_len : fixedB.length = 21 := by decide

/-- The literal `assert.Contains(t, "` does not occur anywhere at or after
the start of a replacement block `replC w` (for a nonempty word-character
group `w`) while still touching the block, whatever text follows it. -/
theorem no_preC_at {w : List Char} (hwne : w ≠ []) (hw : ∀ c ∈ w, wchar c)
    {t : List Char} {i : Nat} (hi : i < (replC w).length)
    (hpre0 : preC <+: ((replC w ++ t).drop i)) : False := by
  have hassoc : replC w ++ t = fixedA ++ (w ++ (fixedB ++ t)) := by
    simp [replC]
  rw [hassoc] at hpre0
  simp only [replC, List.length_append] at hi
  by_cases h1 : i < fixedA.length
  · -- the occurrence starts inside `fixedA`
    rw [List.drop_append_of_le_length (le_of_lt h1)] at hpre0
    rcases prefix_peel hpre0 with hA | ⟨p2, hp2, hp2pre⟩
    · exact pfx_false (gdC1 i h1) hA
    · -- preC = fixedA.drop i ++ p2 with p2 <+: w ++ (fixedB ++ t)
      have hp2len : (fixedA.drop i).length + p2.length = preC.length := by
        have := congrArg List.length hp2
        simp only [List.length_append] at this
        omega
      have hp2eq : preC.drop (fixedA.drop i).length = p2 := by
        rw [hp2, List.drop_left]
      by_cases hp2nil : p2 = []
      · -- the whole of preC is a suffix of fixedA
        subst hp2nil
        rw [List.append_nil] at hp2
        exact pfx_false (gdC1 i h1) (hp2 ▸ List.prefix_refl _)
      · have hj : (fixedA.drop i).length < 20 := by
          have h0 : 0 < p2.length := List.length_pos.mpr hp2nil
          have h20 := preC_len
          omega
        have hquote : '"' ∈ p2 := by
          rw [← hp2eq]
          exact gdC3 _ hj
        rcases prefix_peel hp2pre with hB | ⟨p3, hp3, hp3pre⟩
        · -- p2 <+: w : but p2 contains a quote character
          exact bool_eq_contra (hw '"' (hB.subset hquote)) wchar_quote
        · -- p2 = w ++ p3 with p3 <+: fixedB ++ t
          rcases List.eq_nil_or_concat w with hwnil | ⟨winit, wlast, hwsplit⟩
          · exact absurd hwnil hwne
          · rw [List.concat_eq_append] at hwsplit
            -- locate wlast :: p3 inside preC
            have hkey : preC.drop ((fixedA.drop i).length + winit.length) =
                wlast :: p3 := by
              have hstep : preC.drop (fixedA.drop i).length =
                  winit ++ (wlast :: p3) := by
                rw [hp2eq, hp3, hwsplit]
                simp
              have := congrArg (List.drop winit.length) hstep
              rw [List.drop_drop, List.drop_left] at this
              exact this
            have hk20 : (fixedA.drop i).length + winit.length < 20 := by
              by_contra hge
              rw [List.drop_eq_nil_of_le (by rw [preC_len]; omega)] at hkey
              cases hkey
            have hchkval : chkC1 ((fixedA.drop i).length + winit.length) =
                (!(wchar wlast) || !(p3.isPrefixOf fixedB)) := by
              unfold chkC1
              rw [hkey]
            have hchk := gdC2 _ hk20
            rw [hchkval] at hchk
            have hwl : wchar wlast = true :=
              hw wlast (by rw [hwsplit]; simp)
            rcases prefix_split hp3pre with hC | hC
            · -- p3 <+: fixedB : contradicts chkC1
              have hpf : p3.isPrefixOf fixedB = true :=
                List.isPrefixOf_iff_prefix.mpr hC
              rw [hwl, hpf] at hchk
              simp at hchk
            · -- fixedB <+: p3 : too long
              have hlb := hC.length_le
              have h3 : p3.length + w.length = p2.length := by
                have := congrArg List.length hp3
                simp only [List.length_append] at this
                omega
              have hwlen : 0 < w.length := by
                rw [hwsplit]
                simp
              rw [fixedB_len] at hlb
              rw [preC_len] at hp2len
              omega
  · -- the occurrence starts at or after the group `w`
    have hd0 : (fixedA ++ (w ++ (fixedB ++ t))).drop i =
        (w ++ (fixedB ++ t)).drop (i - fixedA.length) := by
      have h' : i = fixedA.length + (i - fixedA.length) := by omega
      rw [h', List.drop_append]
      congr 1
      omega
    rw [hd0] at hpre0
    by_cases h2 : i - fixedA.length < w.length
    · -- the occurrence starts inside the group `w`
      rw [List.drop_append_of_le_length (le_of_lt h2)] at hpre0
      rcases prefix_peel hpre0 with hA | ⟨p4, hp4, hp4pre⟩
      · -- preC <+: w.drop d : but preC contains '.'
        have : '.' ∈ w.drop (i - fixedA.length) := hA.subset dot_mem_preC
        exact bool_eq_contra (hw '.' (List.drop_subset _ _ this)) wchar_dot
      · -- preC = w.drop d ++ p4, p4 <+: fixedB ++ t
        set wd := w.drop (i - fixedA.length) with hwd
        have hwdlen : 0 < wd.length := by
          rw [hwd, List.length_drop]
          omega
        have hwdall : (preC.take wd.length).all wchar = true := by
          have htake : preC.take wd.length = wd := by
            rw [hp4, List.take_left]
          rw [htake]
          exact List.all_eq_true.mpr fun c hc =>
            hw c (List.drop_subset _ _ hc)
        have hwdle : wd.length ≤ preC.length := by
          have := congrArg List.length hp4
          simp only [List.length_append] at this
          omega
        have hwd6 : wd.length ≤ 6 := by
          by_contra hgt
          have := gdC4 wd.length (by rw [preC_len] at hwdle; omega)
            (by omega)
          exact bool_eq_contra hwdall this
        have hp4eq : preC.drop wd.length = p4 := by
          rw [hp4, List.drop_left]
        rcases prefix_peel hp4pre with hD | ⟨p5, hp5, _⟩
        · exact pfx_false (gdC5 wd.length (by omega) hwdlen)
            (hp4eq ▸ hD)
        · -- p4 = fixedB ++ p5 : too long
          have h4 : fixedB.length ≤ p4.length := by
            rw [hp5]
            simp
          have h5 : wd.length + p4.length = preC.length := by
            have := congrArg List.length hp4
            simp only [List.length_append] at this
            omega
          rw [fixedB_len] at h4
          rw [preC_len] at h5
          omega
    · -- the occurrence starts inside `fixedB`
      have hd1 : (w ++ (fixedB ++ t)).drop (i - fixedA.length) =
          (fixedB ++ t).drop (i - fixedA.length - w.length) := by
        have h' : i - fixedA.length =
            w.length + (i - fixedA.length - w.length) := by omega
        rw [h', List.drop_append]
        congr 1
        omega
      rw [hd1] at hpre0
      have hdb : i - fixedA.length - w.length < fixedB.length := by omega
      rw [List.drop_append_of_le_length (le_of_lt hdb)] at hpre0
      rcases prefix_split hpre0 with hA | hA
      · exact pfx_false (gdC7 _ hdb) hA
      · exact pfx_false (gdC8 _ hdb) hA

theorem matchC_guard : ∀ s g rest, matchC s = some (g, rest) →
    ∀ t i, i < (replC g).length → matchC ((replC g ++ t).drop i) = none := by
  intro s g rest h t i hi
  rcases matchC_eq_some.mp h with ⟨hgne, hgc, _⟩
  cases hbad : matchC ((replC g ++ t).drop i) with
  | none => rfl
  | some p =>
    exfalso
    obtain ⟨W, R2⟩ := p
    rcases matchC_eq_some.mp hbad with ⟨_, _, heq⟩
    exact no_preC_at hgne hgc hi ⟨W ++ (sufC ++ R2), heq.symm⟩

theorem dot_mem_fixedA : '.' ∈ fixedA := by decide

theorem dot_mem_take7_fixedA : '.' ∈ fixedA.take 7 := by decide

theorem spC1 : ∀ k, 1 ≤ k → k < 20 →
    ((preC.drop k).isPrefixOf fixedA) = false := by decide

theorem spC2 : ∀ k, k < 20 → ((sufC.drop k).isPrefixOf fixedA) = false := by
  decide

theorem spC3 : ∀ n, n < 7 → (sufC.isPrefixOf (fixedA.drop n)) = false := by
  decide

theorem fixedA_long : 27 ≤ fixedA.length := by decide

/-- A word-character prefix of `fixedA` has length at most 6 (the seventh
character of `fixedA` is the dot of `assert.Equal`). -/
theorem wordish_prefix_fixedA {z : List Char} (hz : z <+: fixedA)
    (hzc : ∀ c ∈ z, wchar c) : z.length ≤ 6 := by
  by_contra h
  have htk : z = fixedA.take z.length := List.prefix_iff_eq_take.mp hz
  have h7 : fixedA.take 7 = z.take 7 := by
    rw [htk, List.take_take]
    congr 1
    omega
  have hdot : '.' ∈ z.take 7 := by
    rw [← h7]
    exact dot_mem_take7_fixedA
  exact bool_eq_contra (hzc '.' (List.take_subset _ _ hdot)) wchar_dot

/-- A match that begins strictly before a replacement block and extends at
least to the block's start is impossible; hence any match of the pattern in
`a ++ replC g ++ t` that begins inside `a` is entirely contained in `a`. -/
theorem matchC_spill : ∀ s g rest, matchC s = some (g, rest) →
    ∀ a t g2 rest2, a ≠ [] →
    matchC (a ++ replC g ++ t) = some (g2, rest2) →
    (a ++ replC g ++ t).length - rest2.length ≤ a.length := by
  intro s g rest h a t g2 rest2 hane hbad
  rcases matchC_eq_some.mp h with ⟨hgne, hgc, _⟩
  rcases matchC_eq_some.mp hbad with ⟨hWne, hWc, heq⟩
  rw [List.append_assoc] at heq
  -- abbreviations
  have hRepT : replC g ++ t = fixedA ++ (g ++ (fixedB ++ t)) := by
    simp [replC]
  -- first: it suffices to find z3 with a = preC ++ (g2 ++ (sufC ++ z3))
  have hgoal : ∀ z3 : List Char, a = preC ++ (g2 ++ (sufC ++ z3)) →
      (a ++ replC g ++ t).length - rest2.length ≤ a.length := by
    intro z3 ha
    have h1 := congrArg List.length heq
    have h2 := congrArg List.length ha
    simp only [List.length_append] at h1 h2 ⊢
    omega
  rcases split_at heq with ⟨z, hz1, hz2⟩ | ⟨z1, hz1, hz2⟩
  · -- preC = a ++ z : the match's opening literal crosses the boundary
    exfalso
    by_cases hznil : z = []
    · -- a = preC exactly; then the group g2 would have to start at fixedA
      subst hznil
      rw [List.append_nil] at hz1
      rw [List.nil_append] at hz2
      rw [hRepT] at hz2
      rcases split_at hz2 with ⟨z2, hz2a, _⟩ | ⟨z2, hz2a, hz2b⟩
      · -- g2 = fixedA ++ z2 : dot in a word group
        have hdot : '.' ∈ g2 := by
          rw [hz2a]
          exact List.mem_append_left _ dot_mem_fixedA
        exact bool_eq_contra (hWc '.' hdot) wchar_dot
      · -- fixedA = g2 ++ z2 with sufC following
        have hg2pre : g2 <+: fixedA := ⟨z2, hz2a.symm⟩
        have hg6 : g2.length ≤ 6 := wordish_prefix_fixedA hg2pre hWc
        have hz2eq : fixedA.drop g2.length = z2 := by
          rw [hz2a, List.drop_left]
        rcases split_at hz2b with ⟨z5, hz5a, _⟩ | ⟨z5, hz5a, _⟩
        · -- z2 = sufC ++ z5 : sufC is a prefix of fixedA.drop n
          have : sufC <+: fixedA.drop g2.length := by
            rw [hz2eq, hz5a]
            exact ⟨z5, rfl⟩
          exact pfx_false (spC3 g2.length (by omega)) this
        · -- sufC = z2 ++ z5 : fixedA.drop n too long to fit in sufC
          have hlen : z2.length ≤ sufC.length := by
            rw [hz5a]; simp
          have hlz2 : z2.length = fixedA.length - g2.length := by
            rw [← hz2eq, List.length_drop]
          rw [sufC_len] at hlen
          have := fixedA_long
          omega
    · -- z is a proper nonempty suffix of preC, prefix of the block
      have hzeq : preC.drop a.length = z := by
        rw [hz1, List.drop_left]
      have hzlen : a.length + z.length = preC.length := by
        have := congrArg List.length hz1
        simp only [List.length_append] at this
        omega
      have hzlt : 1 ≤ a.length ∧ a.length < 20 := by
        have h0 : 0 < a.length := List.length_pos.mpr hane
        have h1 : 0 < z.length := List.length_pos.mpr hznil
        have := preC_len
        omega
      have hzpre : z <+: fixedA ++ (g ++ (fixedB ++ t)) := by
        rw [← hRepT]
        exact ⟨_, hz2.symm⟩
      rcases prefix_peel hzpre with hA | ⟨p2, hp2, _⟩
      · rw [← hzeq] at hA
        exact pfx_false (spC1 a.length hzlt.1 hzlt.2) hA
      · -- z = fixedA ++ p2 : z too short to contain fixedA
        have : fixedA.length ≤ z.length := by
          rw [hp2]; simp
        have := fixedA_long
        have := preC_len
        omega
  · -- a = preC ++ z1 : the opening literal is inside a; examine the group
    rcases split_at hz2 with ⟨z2, hz2a, hz2b⟩ | ⟨z2, hz2a, hz2b⟩
    · -- z1 = g2 ++ z2 : the group is inside a; examine the closing literal
      rcases split_at hz2b with ⟨z3, hz3a, hz3b⟩ | ⟨z3, hz3a, hz3b⟩
      · -- z2 = sufC ++ z3 : the whole match is inside a
        apply hgoal z3
        rw [hz1, hz2a, hz3a]
      · -- sufC = z2 ++ z3, replC g ++ t = z3 ++ rest2
        by_cases hz3nil : z3 = []
        · -- the match ends exactly at the end of a
          subst hz3nil
          rw [List.append_nil] at hz3a
          apply hgoal []
          rw [hz1, hz2a, hz3a]
          simp
        · exfalso
          have hz3eq : sufC.drop z2.length = z3 := by
            rw [hz3a, List.drop_left]
          have hz3lt : z2.length < 20 := by
            have h1 : 0 < z3.length := List.length_pos.mpr hz3nil
            have := congrArg List.length hz3a
            simp only [List.length_append] at this
            have := sufC_len
            omega
          have hz3pre : z3 <+: fixedA ++ (g ++ (fixedB ++ t)) := by
            rw [← hRepT]
            exact ⟨_, hz3b.symm⟩
          rcases prefix_peel hz3pre with hA | ⟨p2, hp2, _⟩
          · rw [← hz3eq] at hA
            exact pfx_false (spC2 z2.length hz3lt) hA
          · have h1 : fixedA.length ≤ z3.length := by
              rw [hp2]; simp
            have h2 : z3.length ≤ sufC.length := by
              rw [hz3a]; simp
            have := fixedA_long
            have := sufC_len
            omega
    · -- g2 = z1 ++ z2 : the group crosses the boundary
      exfalso
      by_cases hz2nil : z2 = []
      · -- the group ends exactly at the boundary; sufC starts the block
        subst hz2nil
        rw [List.append_nil] at hz2a
        rw [List.nil_append, hRepT] at hz2b
        rcases split_at hz2b with ⟨z5, hz5a, _⟩ | ⟨z5, hz5a, _⟩
        · -- sufC = fixedA ++ z5 : too long
          have : fixedA.length ≤ sufC.length := by
            rw [hz5a]; simp
          have := fixedA_long
          have := sufC_len
          omega
        · -- fixedA = sufC ++ z5 : sufC prefix of fixedA
          exact pfx_false (spC3 0 (by omega)) ⟨z5, by simpa using hz5a.symm⟩
      · -- z2 is a nonempty word-character run starting the block
        have hz2c : ∀ c ∈ z2, wchar c := by
          intro c hc
          exact hWc c (by rw [hz2a]; exact List.mem_append_right _ hc)
        rw [hRepT] at hz2b
        rcases split_at hz2b with ⟨z4, hz4a, hz4b⟩ | ⟨z4, hz4a, hz4b⟩
        · -- z2 = fixedA ++ z4 : dot in a word run
          have hdot : '.' ∈ z2 := by
            rw [hz4a]
            exact List.mem_append_left _ dot_mem_fixedA
          exact bool_eq_contra (hz2c '.' hdot) wchar_dot
        · -- fixedA = z2 ++ z4 with sufC following
          have hz2pre : z2 <+: fixedA := ⟨z4, hz4a.symm⟩
          have h6 : z2.length ≤ 6 := wordish_prefix_fixedA hz2pre hz2c
          have hz4eq : fixedA.drop z2.length = z4 := by
            rw [hz4a, List.drop_left]
          rcases split_at hz4b with ⟨z5, hz5a, _⟩ | ⟨z5, hz5a, _⟩
          · -- z4 = sufC ++ z5
            have : sufC <+: fixedA.drop z2.length := by
              rw [hz4eq, hz5a]
              exact ⟨z5, rfl⟩
            exact pfx_false (spC3 z2.length (by omega)) this
          · -- sufC = z4 ++ z5 : fixedA.drop n too long
            have hlen : z4.length ≤ sufC.length := by
              rw [hz5a]; simp
            have hlz4 : z4.length = fixedA.length - z2.length := by
              rw [← hz4eq, List.length_drop]
            rw [sufC_len] at hlen
            have := fixedA_long
            omega

/-- The pattern-1 rule of `fix_test_file` is well-behaved. -/
theorem matchC_spec : MatcherSpec matchC replC :=
  ⟨matchC_shrink, matchC_localized, matchC_guard, matchC_spill⟩

end FixTestResponses

namespace FixHandlerTests

open Rewriter

open FixTestResponses (bool_eq_contra pfx_false prefix_peel
  drop_length_takeWhile)

theorem gapThen_eq_some_of {L s w s2 : List Char}
    (h : gapThen L s = some (w, s2)) :
    w ≠ [] ∧ (∀ c ∈ w, wschar c) ∧ s = w ++ (L ++ s2) := by
  unfold gapThen at h
  simp only at h
  by_cases hw : s.takeWhile wschar = []
  · rw [if_pos hw] at h; cases h
  · rw [if_neg hw] at h
    cases h2 : dropPref L (s.drop (s.takeWhile wschar).length) with
    | none => rw [h2] at h; cases h
    | some rest0 =>
      rw [h2] at h
      simp only [Option.some.injEq, Prod.mk.injEq] at h
      obtain ⟨hww, hrr⟩ := h
      subst hww
      subst hrr
      refine ⟨hw, fun c hc => List.mem_takeWhile_imp hc, ?_⟩
      rw [FixTestResponses.drop_length_takeWhile] at h2
      have h3 := dropPref_eq_some.mp h2
      conv_lhs => rw [← List.takeWhile_append_dropWhile (p := wschar)
        (l := s)]
      rw [h3]

theorem gapThen_intro {L w s2 : List Char} (hL : headNW L = true)
    (hw : w ≠ []) (hwc : ∀ c ∈ w, wschar c) :
    gapThen L (w ++ (L ++ s2)) = some (w, s2) := by
  unfold gapThen
  match L, hL with
  | c :: L', hL =>
    have hc : wschar c = false := by
      unfold headNW at hL
      simpa using hL
    have htw : (w ++ (c :: L' ++ s2)).takeWhile wschar = w := by
      rw [List.takeWhile_append_of_pos hwc, List.cons_append,
        List.takeWhile_cons_of_neg (by rw [hc]; simp), List.append_nil]
    rw [htw]
    simp only [if_neg hw]
    rw [List.drop_left, dropPref_self]

theorem L1_headNW : headNW L1 = true := by decide

theorem L2_headNW : headNW L2 = true := by decide

theorem L3_headNW : headNW L3 = true := by decide

theorem L4_headNW : headNW L4 = true := by decide

/-- Characterization of the handler matchers. -/
theorem matchH_eq_some {l0 l5 : List Char} (h5 : headNW l5 = true)
    {s g rest : List Char} :
    matchH l0 l5 s = some (g, rest) ↔
      IsPreamble l0 g ∧ s = g ++ (l5 ++ rest) := by
  constructor
  · intro h
    simp only [matchH, Option.bind_eq_some, Option.some.injEq,
      Prod.mk.injEq] at h
    obtain ⟨s1, h0, p1, h1, p2, h2, p3, h3, p4, h4, p5, h5', hg, hr⟩ := h
    obtain ⟨w1, s2⟩ := p1
    obtain ⟨w2, s3⟩ := p2
    obtain ⟨w3, s4⟩ := p3
    obtain ⟨w4, s5⟩ := p4
    obtain ⟨w5, rest0⟩ := p5
    simp only at h1 h2 h3 h4 h5' hg hr
    subst hr
    rcases gapThen_eq_some_of h1 with ⟨hw1, hc1, he1⟩
    rcases gapThen_eq_some_of h2 with ⟨hw2, hc2, he2⟩
    rcases gapThen_eq_some_of h3 with ⟨hw3, hc3, he3⟩
    rcases gapThen_eq_some_of h4 with ⟨hw4, hc4, he4⟩
    rcases gapThen_eq_some_of h5' with ⟨hw5, hc5, he5⟩
    have hs : s = l0 ++ s1 := dropPref_eq_some.mp h0
    constructor
    · exact ⟨w1, w2, w3, w4, w5, ⟨hw1, hc1⟩, ⟨hw2, hc2⟩,
        ⟨hw3, hc3⟩, ⟨hw4, hc4⟩, ⟨hw5, hc5⟩, hg.symm⟩
    · rw [hs, he1, he2, he3, he4, he5, ← hg]
      simp
  · rintro ⟨⟨w1, w2, w3, w4, w5, ⟨hw1, hc1⟩, ⟨hw2, hc2⟩, ⟨hw3, hc3⟩,
      ⟨hw4, hc4⟩, ⟨hw5, hc5⟩, hg⟩, hs⟩
    subst hg
    subst hs
    have hkey : (l0 ++ (w1 ++ (L1 ++ (w2 ++ (L2 ++ (w3 ++ (L3 ++ (w4 ++
        (L4 ++ w5))))))))) ++ (l5 ++ rest) =
        l0 ++ (w1 ++ (L1 ++ (w2 ++ (L2 ++ (w3 ++ (L3 ++ (w4 ++ (L4 ++
          (w5 ++ (l5 ++ rest)))))))))) := by
      simp
    simp only [matchH, hkey, dropPref_self, Option.some_bind,
      gapThen_intro L1_headNW hw1 hc1, gapThen_intro L2_headNW hw2 hc2,
      gapThen_intro L3_headNW hw3 hc3, gapThen_intro L4_headNW hw4 hc4,
      gapThen_intro h5 hw5 hc5]

theorem matchH_shrink {l0 l5 : List Char} (h5 : headNW l5 = true) :
    Shrink (matchH l0 l5) := by
  intro s g rest h
  rcases (matchH_eq_some h5).mp h with ⟨⟨w1, w2, w3, w4, w5, ⟨hw1, _⟩, _, _,
    _, _, hg⟩, hs⟩
  subst hs
  have hlg := congrArg List.length hg
  simp only [List.length_append] at hlg ⊢
  have : 0 < w1.length := List.length_pos.mpr hw1
  omega

theorem matchH_localized {l0 l5 : List Char} (h5 : headNW l5 = true) :
    Localized (matchH l0 l5) := by
  intro s g rest h
  rcases (matchH_eq_some h5).mp h with ⟨hp, hs⟩
  have hgne : g ++ l5 ≠ [] := by
    rcases hp with ⟨w1, w2, w3, w4, w5, ⟨hw1, _⟩, _, _, _, _, hg⟩
    intro hnil
    have hl1 := congrArg List.length hnil
    have hlg := congrArg List.length hg
    simp only [List.length_append, List.length_nil] at hl1 hlg
    have hw1p : 0 < w1.length := List.length_pos.mpr hw1
    omega
  refine ⟨g ++ l5, by rw [hs]; simp, hgne, fun z => ?_⟩
  exact (matchH_eq_some h5).mpr ⟨hp, by simp⟩

theorem headNW_append {X t : List Char} (hX : headNW X = true) :
    headNW (X ++ t) = true := by
  match X, hX with
  | c :: X', hX => exact hX

theorem dropPref_none {p s : List Char} (h : ¬ p <+: s) :
    dropPref p s = none := by
  unfold dropPref
  rw [if_neg (by
    intro hb
    exact h (List.isPrefixOf_iff_prefix.mp hb))]

theorem takeWhile_ws_append {w X : List Char} (hwc : ∀ c ∈ w, wschar c)
    (hX : headNW X = true) : (w ++ X).takeWhile wschar = w := by
  match X, hX with
  | c :: X', hX =>
    have hc : wschar c = false := by
      unfold headNW at hX
      simpa using hX
    rw [List.takeWhile_append_of_pos hwc,
      List.takeWhile_cons_of_neg (by rw [hc]; simp), List.append_nil]

theorem gapThen_none {L w X : List Char} (hw : w ≠ [])
    (hwc : ∀ c ∈ w, wschar c) (hX : headNW X = true) (hnp : ¬ L <+: X) :
    gapThen L (w ++ X) = none := by
  unfold gapThen
  simp only
  rw [takeWhile_ws_append hwc hX, if_neg hw, List.drop_left,
    dropPref_none hnp]

/-- One step of locating a whitespace-free needle inside
`A ++ (ws-run ++ B)`: the needle lies entirely inside `A`, or entirely
beyond the whitespace run. -/
theorem needle_step {n A C B : List Char} (hn : n ≠ [])
    (hnws : ∀ c ∈ n, wschar c = false)
    (hC : C ≠ []) (hCws : ∀ c ∈ C, wschar c = true)
    {i : Nat} (h : n <+: (A ++ (C ++ B)).drop i) :
    (i < A.length ∧ n <+: A.drop i) ∨
    (∃ j, i = A.length + C.length + j ∧ n <+: B.drop j) := by
  by_cases h1 : i < A.length
  · left
    refine ⟨h1, ?_⟩
    rw [List.drop_append_of_le_length (le_of_lt h1)] at h
    rcases prefix_peel h with hA | ⟨n2, hn2, hn2pre⟩
    · exact hA
    · by_cases hn2nil : n2 = []
      · subst hn2nil
        rw [List.append_nil] at hn2
        rw [hn2]
      · exfalso
        match C, hC with
        | c0 :: C', _ =>
          match n2, hn2nil with
          | d :: n2', _ =>
            rcases hn2pre with ⟨t2, ht2⟩
            rw [List.cons_append, List.cons_append] at ht2
            have hd : d = c0 := by
              simpa using congrArg List.head? ht2
            have hdn : d ∈ n := by
              rw [hn2]
              exact List.mem_append_right _ (by simp)
            have h1' := hnws d hdn
            have h2' := hCws c0 (by simp)
            rw [hd] at h1'
            exact bool_eq_contra h2' h1'
  · by_cases h2 : i < A.length + C.length
    · exfalso
      have hd : (A ++ (C ++ B)).drop i = (C ++ B).drop (i - A.length) := by
        have h' : i = A.length + (i - A.length) := by omega
        rw [h', List.drop_append]
        congr 1
        omega
      rw [hd] at h
      have h3 : i - A.length < C.length := by omega
      rw [List.drop_append_of_le_length (le_of_lt h3)] at h
      have hCd : C.drop (i - A.length) ≠ [] := by
        intro hnil
        have := congrArg List.length hnil
        simp only [List.length_drop] at this
        simp at this
        omega
      match n, hn with
      | d :: n', _ =>
        match hC2 : C.drop (i - A.length), hCd with
        | c0 :: C2, _ =>
          rw [hC2, List.cons_append] at h
          have hd0 : d = c0 := by
            rcases h with ⟨t2, ht2⟩
            rw [List.cons_append] at ht2
            simpa using congrArg List.head? ht2
          have hc0 : c0 ∈ C := by
            apply List.drop_subset (i - A.length)
            rw [hC2]
            simp
          have h1' := hnws d (by simp)
          have h2' := hCws c0 hc0
          rw [hd0] at h1'
          exact bool_eq_contra h2' h1'
    · right
      refine ⟨i - A.length - C.length, by omega, ?_⟩
      have h'' : i = (A ++ C).length + (i - A.length - C.length) := by
        simp only [List.length_append]
        omega
      rw [← List.append_assoc, h'', List.drop_append] at h
      exact h

theorem n0_ne : n0 ≠ [] := by decide

theorem n0_nws : ∀ c ∈ n0, wschar c = false := by decide

theorem n0_pre_L0A : n0 <+: L0A := by
  exact List.isPrefixOf_iff_prefix.mp (by decide)

theorem n0_pre_L0B : n0 <+: L0B := by
  exact List.isPrefixOf_iff_prefix.mp (by decide)

theorem ndL1 : ∀ j, j < L1.length → (n0.isPrefixOf (L1.drop j)) = false := by
  decide

theorem ndL2 : ∀ j, j < L2.length → (n0.isPrefixOf (L2.drop j)) = false := by
  decide

theorem ndL3 : ∀ j, j < L3.length → (n0.isPrefixOf (L3.drop j)) = false := by
  decide

theorem ndL4 : ∀ j, j < L4.length → (n0.isPrefixOf (L4.drop j)) = false := by
  decide

theorem rpar_not_mem_n0 : ')' ∈ n0 → False := by decide

theorem ndL0A : ∀ j, 1 ≤ j → j < L0A.length →
    (n0.isPrefixOf (L0A.drop j)) = false := by decide

theorem ndL0B : ∀ j, 1 ≤ j → j < L0B.length →
    (n0.isPrefixOf (L0B.drop j)) = false := by decide

theorem ndNA : ∀ j, j < NA.length → (n0.isPrefixOf (NA.drop j)) = false := by
  decide

theorem ndNB : ∀ j, j < NB.length → (n0.isPrefixOf (NB.drop j)) = false := by
  decide

theorem NA_last : NA = NA.dropLast ++ [')'] := by decide

theorem NB_last : NB = NB.dropLast ++ [')'] := by decide

/-- The needle does not occur at a nonzero position of a preamble followed
by a replacement tail `nS`, while still touching the replacement block. -/
theorem no_n0_occ {l0S nS t w1 w2 w3 w4 w5 : List Char}
    (hn1 : w1 ≠ []) (hc1 : ∀ c ∈ w1, wschar c)
    (hn2 : w2 ≠ []) (hc2 : ∀ c ∈ w2, wschar c)
    (hn3 : w3 ≠ []) (hc3 : ∀ c ∈ w3, wschar c)
    (hn4 : w4 ≠ []) (hc4 : ∀ c ∈ w4, wschar c)
    (hn5 : w5 ≠ []) (hc5 : ∀ c ∈ w5, wschar c)
    (hd0 : ∀ j, 1 ≤ j → j < l0S.length → (n0.isPrefixOf (l0S.drop j)) = false)
    (hdn : ∀ j, j < nS.length → (n0.isPrefixOf (nS.drop j)) = false)
    (hnlast : nS = nS.dropLast ++ [')'])
    {i : Nat} (hi1 : 1 ≤ i)
    (hi2 : i < l0S.length + w1.length + L1.length + w2.length + L2.length +
      w3.length + L3.length + w4.length + L4.length + w5.length + nS.length)
    (h : n0 <+: (l0S ++ (w1 ++ (L1 ++ (w2 ++ (L2 ++ (w3 ++ (L3 ++ (w4 ++
      (L4 ++ (w5 ++ (nS ++ t))))))))))).drop i) : False := by
  rcases needle_step n0_ne n0_nws hn1 hc1 h with ⟨hlt, hp⟩ | ⟨j1, hij1, h⟩
  · exact pfx_false (hd0 i hi1 hlt) hp
  rcases needle_step n0_ne n0_nws hn2 hc2 h with ⟨hlt, hp⟩ | ⟨j2, hij2, h⟩
  · exact pfx_false (ndL1 _ hlt) hp
  rcases needle_step n0_ne n0_nws hn3 hc3 h with ⟨hlt, hp⟩ | ⟨j3, hij3, h⟩
  · exact pfx_false (ndL2 _ hlt) hp
  rcases needle_step n0_ne n0_nws hn4 hc4 h with ⟨hlt, hp⟩ | ⟨j4, hij4, h⟩
  · exact pfx_false (ndL3 _ hlt) hp
  rcases needle_step n0_ne n0_nws hn5 hc5 h with ⟨hlt, hp⟩ | ⟨j5, hij5, h⟩
  · exact pfx_false (ndL4 _ hlt) hp
  have hj5 : j5 < nS.length := by omega
  rw [List.drop_append_of_le_length (le_of_lt hj5)] at h
  rcases prefix_peel h with hA | ⟨p2, hp2, _⟩
  · exact pfx_false (hdn _ hj5) hA
  · have hrp : ')' ∈ nS.drop j5 := by
      conv_lhs => rw [hnlast]
      rw [List.drop_append_of_le_length (by
        rw [List.length_dropLast]
        omega)]
      exact List.mem_append_right _ (by simp)
    apply rpar_not_mem_n0
    rw [hp2]
    exact List.mem_append_left _ hrp

/-- A handler rule never matches starting exactly at a preamble that is
followed by its own rule's replacement tail: the matcher walks the preamble
and then fails because `nS` does not start with the closing literal. -/
theorem matchH_none_same {l0 l5 nS : List Char}
    (hnS : headNW nS = true) (hpf : l5.isPrefixOf nS = false)
    (hlen : l5.length < nS.length) :
    ∀ g, IsPreamble l0 g → ∀ t', matchH l0 l5 (g ++ (nS ++ t')) = none := by
  intro g hp t'
  rcases hp with ⟨w1, w2, w3, w4, w5, ⟨hw1, hc1⟩, ⟨hw2, hc2⟩, ⟨hw3, hc3⟩,
    ⟨hw4, hc4⟩, ⟨hw5, hc5⟩, hg⟩
  subst hg
  have hkey : (l0 ++ (w1 ++ (L1 ++ (w2 ++ (L2 ++ (w3 ++ (L3 ++ (w4 ++
      (L4 ++ w5))))))))) ++ (nS ++ t') =
      l0 ++ (w1 ++ (L1 ++ (w2 ++ (L2 ++ (w3 ++ (L3 ++ (w4 ++ (L4 ++
        (w5 ++ (nS ++ t')))))))))) := by
    simp
  have hnp : ¬ l5 <+: nS ++ t' := by
    intro hpre
    rcases prefix_split hpre with hA | hA
    · exact pfx_false hpf hA
    · have h1 := hA.length_le
      omega
  simp only [matchH, hkey, dropPref_self, Option.some_bind,
    gapThen_intro L1_headNW hw1 hc1, gapThen_intro L2_headNW hw2 hc2,
    gapThen_intro L3_headNW hw3 hc3, gapThen_intro L4_headNW hw4 hc4,
    gapThen_none hw5 hc5 (headNW_append hnS) hnp, Option.none_bind]

/-- A handler rule never matches starting exactly at a preamble of the
other rule: the opening literals are incompatible. -/
theorem matchH_none_cross {l0R l5R l0S nS : List Char}
    (h5R : headNW l5R = true)
    (hx1 : l0R.isPrefixOf l0S = false) (hx2 : l0S.isPrefixOf l0R = false) :
    ∀ g, IsPreamble l0S g → ∀ t', matchH l0R l5R (g ++ (nS ++ t')) = none := by
  intro g hp t'
  cases hbad : matchH l0R l5R (g ++ (nS ++ t')) with
  | none => rfl
  | some p =>
    exfalso
    obtain ⟨g2, rest2⟩ := p
    rcases (matchH_eq_some h5R).mp hbad with ⟨⟨w1', w2', w3', w4', w5', _, _,
      _, _, _, hg2⟩, hs2⟩
    rcases hp with ⟨w1, w2, w3, w4, w5, _, _, _, _, _, hg⟩
    have hR : l0R <+: g ++ (nS ++ t') := by
      rw [hs2]
      exact (show l0R <+: g2 from ⟨_, hg2.symm⟩).trans
        (List.prefix_append _ _)
    rw [hg, List.append_assoc] at hR
    rcases prefix_split hR with hA | hA
    · exact pfx_false hx1 hA
    · exact pfx_false hx2 hA

/-- Guard for the handler rules: no match of rule `R` starts at or inside a
replacement block made from an `S`-preamble `g` followed by `nS`. -/
theorem guardH {l0R l5R l0S l5S nS : List Char}
    (h5R : headNW l5R = true) (h5S : headNW l5S = true)
    (hR0 : n0 <+: l0R)
    (hd0 : ∀ j, 1 ≤ j → j < l0S.length → (n0.isPrefixOf (l0S.drop j)) = false)
    (hdn : ∀ j, j < nS.length → (n0.isPrefixOf (nS.drop j)) = false)
    (hnlast : nS = nS.dropLast ++ [')'])
    (h0match : ∀ g, IsPreamble l0S g → ∀ t',
      matchH l0R l5R (g ++ (nS ++ t')) = none) :
    ∀ s g rest, matchH l0S l5S s = some (g, rest) → ∀ t i,
      i < (g ++ nS).length →
      matchH l0R l5R (((g ++ nS) ++ t).drop i) = none := by
  intro s g rest h t i hi
  rcases (matchH_eq_some h5S).mp h with ⟨hp, _⟩
  by_cases hi0 : i = 0
  · subst hi0
    rw [List.drop_zero, List.append_assoc]
    exact h0match g hp t
  · cases hbad : matchH l0R l5R (((g ++ nS) ++ t).drop i) with
    | none => rfl
    | some p =>
      exfalso
      obtain ⟨g2, rest2⟩ := p
      rcases (matchH_eq_some h5R).mp hbad with ⟨⟨v1, v2, v3, v4, v5, _, _, _,
        _, _, hg2⟩, hs2⟩
      have hR : n0 <+: ((g ++ nS) ++ t).drop i := by
        rw [hs2]
        exact hR0.trans ((show l0R <+: g2 from ⟨_, hg2.symm⟩).trans
          (List.prefix_append _ _))
      rcases hp with ⟨w1, w2, w3, w4, w5, ⟨hw1, hc1⟩, ⟨hw2, hc2⟩, ⟨hw3, hc3⟩,
        ⟨hw4, hc4⟩, ⟨hw5, hc5⟩, hg⟩
      have hdoc : (g ++ nS) ++ t = l0S ++ (w1 ++ (L1 ++ (w2 ++ (L2 ++ (w3 ++
          (L3 ++ (w4 ++ (L4 ++ (w5 ++ (nS ++ t)))))))))) := by
        rw [hg]
        simp
      rw [hdoc] at hR
      have hlen : i < l0S.length + w1.length + L1.length + w2.length +
          L2.length + w3.length + L3.length + w4.length + L4.length +
          w5.length + nS.length := by
        have hlg := congrArg List.length hg
        simp only [List.length_append] at hlg
        simp only [List.length_append] at hi
        omega
      exact no_n0_occ hw1 hc1 hw2 hc2 hw3 hc3 hw4 hc4 hw5 hc5 hd0 hdn hnlast
        (by omega) hlen hR

theorem spill_step_lit {cur RepT P Rest Sl0 W : List Char}
    (hrep : RepT = Sl0 ++ W) {k0 : Nat} (hk0 : k0 ≤ cur.length)
    (hok : okPiece P Sl0 k0)
    (hE : cur ++ RepT = P ++ Rest) :
    ∃ cur2, cur = P ++ cur2 ∧ Rest = cur2 ++ RepT := by
  rcases split_at hE with ⟨z, hz1, hz2⟩ | ⟨z, hz1, hz2⟩
  · by_cases hznil : z = []
    · subst hznil
      rw [List.append_nil] at hz1
      rw [List.nil_append] at hz2
      exact ⟨[], by rw [List.append_nil, hz1], by rw [List.nil_append, hz2]⟩
    · exfalso
      have hzeq : P.drop cur.length = z := by
        rw [hz1, List.drop_left]
      have hk : cur.length < P.length := by
        have h1 := congrArg List.length hz1
        simp only [List.length_append] at h1
        have h2 : 0 < z.length := List.length_pos.mpr hznil
        omega
      have hzpre : z <+: Sl0 ++ W := by
        rw [← hrep]
        exact ⟨Rest, hz2.symm⟩
      rcases prefix_split hzpre with hA | hA
      · exact pfx_false ((hok cur.length hk hk0).1)
          (by rw [hzeq]; exact hA)
      · exact pfx_false ((hok cur.length hk hk0).2)
          (by rw [hzeq]; exact hA)
  · exact ⟨z, hz1, hz2⟩

theorem spill_step_ws {cur RepT C Rest Sl0 W : List Char}
    (hrep : RepT = Sl0 ++ W) (hSl0 : headNW Sl0 = true)
    (hC : ∀ c ∈ C, wschar c)
    (hE : cur ++ RepT = C ++ Rest) :
    ∃ cur2, cur = C ++ cur2 ∧ Rest = cur2 ++ RepT := by
  rcases split_at hE with ⟨z, hz1, hz2⟩ | ⟨z, hz1, hz2⟩
  · by_cases hznil : z = []
    · subst hznil
      rw [List.append_nil] at hz1
      rw [List.nil_append] at hz2
      exact ⟨[], by rw [List.append_nil, hz1], by rw [List.nil_append, hz2]⟩
    · exfalso
      have hzpre : z <+: Sl0 ++ W := by
        rw [← hrep]
        exact ⟨Rest, hz2.symm⟩
      match Sl0, hSl0 with
      | c0 :: Sl0', hSl0 =>
        match z, hznil with
        | d :: z', _ =>
          rcases hzpre with ⟨t2, ht2⟩
          rw [List.cons_append, List.cons_append] at ht2
          have hd : d = c0 := by
            simpa using congrArg List.head? ht2
          have hdC : d ∈ C := by
            rw [hz1]
            exact List.mem_append_right _ (by simp)
          have h1' := hC d hdC
          have h2' : wschar c0 = false := by
            unfold headNW at hSl0
            simpa using hSl0
          rw [hd] at h1'
          exact bool_eq_contra h1' h2'
  · exact ⟨z, hz1, hz2⟩

/-- Spill for the handler rules: a match of rule `R` beginning strictly
before a replacement block of rule `S` is entirely contained in the text
before the block. -/
theorem spillH {l0R l5R l0S l5S nS : List Char}
    (h5R : headNW l5R = true) (h5S : headNW l5S = true)
    (hS0 : headNW l0S = true)
    (ok0 : okPiece l0R l0S 1) (okl1 : okPiece L1 l0S 0)
    (okl2 : okPiece L2 l0S 0) (okl3 : okPiece L3 l0S 0)
    (okl4 : okPiece L4 l0S 0) (ok5 : okPiece l5R l0S 0) :
    ∀ s g rest, matchH l0S l5S s = some (g, rest) →
    ∀ a t g2 rest2, a ≠ [] →
      matchH l0R l5R (a ++ (g ++ nS) ++ t) = some (g2, rest2) →
      (a ++ (g ++ nS) ++ t).length - rest2.length ≤ a.length := by
  intro s g rest h a t g2 rest2 hane hbad
  rcases (matchH_eq_some h5S).mp h with ⟨hp, _⟩
  rcases (matchH_eq_some h5R).mp hbad with ⟨⟨v1, v2, v3, v4, v5, ⟨hv1, hcv1⟩,
    ⟨hv2, hcv2⟩, ⟨hv3, hcv3⟩, ⟨hv4, hcv4⟩, ⟨hv5, hcv5⟩, hg2⟩, hs2⟩
  rcases hp with ⟨w1, w2, w3, w4, w5, _, _, _, _, _, hg⟩
  have hrep : (g ++ nS) ++ t = l0S ++ ((w1 ++ (L1 ++ (w2 ++ (L2 ++ (w3 ++
      (L3 ++ (w4 ++ (L4 ++ w5)))))))) ++ (nS ++ t)) := by
    rw [hg]
    simp
  have hE0 : a ++ ((g ++ nS) ++ t) =
      l0R ++ (v1 ++ (L1 ++ (v2 ++ (L2 ++ (v3 ++ (L3 ++ (v4 ++ (L4 ++ (v5 ++
        (l5R ++ rest2)))))))))) := by
    have hclean := hs2
    rw [hg2] at hclean
    simp only [List.append_assoc] at hclean ⊢
    exact hclean
  have hk0 : 1 ≤ a.length := List.length_pos.mpr hane
  rcases spill_step_lit hrep hk0 ok0 hE0 with ⟨c1, ha1, hE1⟩
  rcases spill_step_ws hrep hS0 hcv1 hE1.symm with ⟨c2, ha2, hE2⟩
  rcases spill_step_lit hrep (Nat.zero_le _) okl1 hE2.symm with ⟨c3, ha3, hE3⟩
  rcases spill_step_ws hrep hS0 hcv2 hE3.symm with ⟨c4, ha4, hE4⟩
  rcases spill_step_lit hrep (Nat.zero_le _) okl2 hE4.symm with ⟨c5, ha5, hE5⟩
  rcases spill_step_ws hrep hS0 hcv3 hE5.symm with ⟨c6, ha6, hE6⟩
  rcases spill_step_lit hrep (Nat.zero_le _) okl3 hE6.symm with ⟨c7, ha7, hE7⟩
  rcases spill_step_ws hrep hS0 hcv4 hE7.symm with ⟨c8, ha8, hE8⟩
  rcases spill_step_lit hrep (Nat.zero_le _) okl4 hE8.symm with ⟨c9, ha9, hE9⟩
  rcases spill_step_ws hrep hS0 hcv5 hE9.symm with ⟨c10, ha10, hE10⟩
  rcases spill_step_lit hrep (Nat.zero_le _) ok5 hE10.symm with
    ⟨c11, ha11, hE11⟩
  have l1 := congrArg List.length ha1
  have l2 := congrArg List.length ha2
  have l3 := congrArg List.length ha3
  have l4 := congrArg List.length ha4
  have l5' := congrArg List.length ha5
  have l6 := congrArg List.length ha6
  have l7 := congrArg List.length ha7
  have l8 := congrArg List.length ha8
  have l9 := congrArg List.length ha9
  have l10 := congrArg List.length ha10
  have l11 := congrArg List.length ha11
  have l12 := congrArg List.length hE11
  simp only [List.length_append] at l1 l2 l3 l4 l5' l6 l7 l8 l9 l10 l11 l12 ⊢
  omega

theorem h5A : headNW L5A = true := by decide

theorem h5B : headNW L5B = true := by decide

theorem hA0nw : headNW L0A = true := by decide

theorem hB0nw : headNW L0B = true := by decide

theorem hNAnw : headNW NA = true := by decide

theorem hNBnw : headNW NB = true := by decide

theorem hpfA : L5A.isPrefixOf NA = false := by decide

theorem hpfB : L5B.isPrefixOf NB = false := by decide

theorem hlenA : L5A.length < NA.length := by decide

theorem hlenB : L5B.length < NB.length := by decide

theorem hxAB1 : L0A.isPrefixOf L0B = false := by decide

theorem hxAB2 : L0B.isPrefixOf L0A = false := by decide

theorem okp_L0A_L0A : okPiece L0A L0A 1 := by decide

theorem okp_L1_L0A : okPiece L1 L0A 0 := by decide

theorem okp_L2_L0A : okPiece L2 L0A 0 := by decide

theorem okp_L3_L0A : okPiece L3 L0A 0 := by decide

theorem okp_L4_L0A : okPiece L4 L0A 0 := by decide

theorem okp_L5A_L0A : okPiece L5A L0A 0 := by decide

theorem okp_L0A_L0B : okPiece L0A L0B 1 := by decide

theorem okp_L0B_L0B : okPiece L0B L0B 1 := by decide

theorem okp_L1_L0B : okPiece L1 L0B 0 := by decide

theorem okp_L2_L0B : okPiece L2 L0B 0 := by decide

theorem okp_L3_L0B : okPiece L3 L0B 0 := by decide

theorem okp_L4_L0B : okPiece L4 L0B 0 := by decide

theorem okp_L5A_L0B : okPiece L5A L0B 0 := by decide

theorem okp_L5B_L0B : okPiece L5B L0B 0 := by decide

/-- The first handler rule is well-behaved. -/
theorem specA : MatcherSpec mA rA :=
  ⟨matchH_shrink h5A, matchH_localized h5A,
    guardH h5A h5A n0_pre_L0A ndL0A ndNA NA_last
      (matchH_none_same hNAnw hpfA hlenA),
    spillH h5A h5A hA0nw okp_L0A_L0A okp_L1_L0A okp_L2_L0A okp_L3_L0A
      okp_L4_L0A okp_L5A_L0A⟩

/-- The second handler rule is well-behaved. -/
theorem specB : MatcherSpec mB rB :=
  ⟨matchH_shrink h5B, matchH_localized h5B,
    guardH h5B h5B n0_pre_L0B ndL0B ndNB NB_last
      (matchH_none_same hNBnw hpfB hlenB),
    spillH h5B h5B hB0nw okp_L0B_L0B okp_L1_L0B okp_L2_L0B okp_L3_L0B
      okp_L4_L0B okp_L5B_L0B⟩

/-- The first rule never matches at or inside a replacement block of the
second rule. -/
theorem crossAB : CrossSpec mA mB rB :=
  ⟨guardH h5A h5B n0_pre_L0A ndL0B ndNB NB_last
      (matchH_none_cross h5A hxAB1 hxAB2),
    spillH h5A h5B hB0nw okp_L0A_L0B okp_L1_L0B okp_L2_L0B okp_L3_L0B
      okp_L4_L0B okp_L5A_L0B⟩

end FixHandlerTests

open Rewriter

/-- C1: for every document containing an occurrence of the idiom
`assert.Contains(t, "NOT_FOUND", response["code"])` (in a position where no
earlier match overlaps it), the output of the rewrite `fix_test_file`
contains, in place of that occurrence, the equality assertion that
`response["success"]` is false, the assertion that `response["error"]` is a
map, and the equality assertion that the map's `"code"` entry equals the
same literal `NOT_FOUND`, preserved character for character.  The first two
conjuncts spell out, character for character, the recognized idiom and the
replacement that takes its place. -/
theorem claim_C1 :
    FixTestResponses.containsCodeAssert ("NOT_FOUND".data) =
      ("assert.Contains(t, \"NOT_FOUND\", response[\"code\"])".data) ∧
    FixTestResponses.replC ("NOT_FOUND".data) =
      (("assert.Equal(t, false, response[\"success\"])\n\t\t\t\terrorInfo, ok := response[\"error\"].(map[string]interface\x7b\x7d)\n\t\t\t\tassert.True(t, ok, \"error should be a map\")\n\t\t\t\tassert.Equal(t, \"NOT_FOUND\", errorInfo[\"code\"])").data) ∧
    ∀ u v : List Char,
      (∀ i, i < u.length → FixTestResponses.matchC ((u ++
        (FixTestResponses.containsCodeAssert ("NOT_FOUND".data) ++ v)).drop
          i) = none) →
      FixTestResponses.fix_test_file (u ++
          (FixTestResponses.containsCodeAssert ("NOT_FOUND".data) ++ v)) =
        u ++ (FixTestResponses.replC ("NOT_FOUND".data) ++
          FixTestResponses.fix_test_file v) := by
  refine ⟨by decide, by decide, fun u v hu => ?_⟩
  unfold FixTestResponses.fix_test_file
  rw [subAll_append hu]
  congr 1
  have hm : FixTestResponses.matchC
      (FixTestResponses.containsCodeAssert ("NOT_FOUND".data) ++ v) =
      some ("NOT_FOUND".data, v) := by
    apply FixTestResponses.matchC_eq_some.mpr
    refine ⟨by decide, by decide, ?_⟩
    unfold FixTestResponses.containsCodeAssert
    simp
  exact subAll_matched FixTestResponses.matchC_shrink hm (by
    unfold FixTestResponses.containsCodeAssert
    simp [FixTestResponses.preC])

theorem claim_C1_witness :
    FixTestResponses.fix_test_file (("x\n\t".data) ++
        (FixTestResponses.containsCodeAssert ("NOT_FOUND".data) ++
          ("\ny".data))) =
      ("x\n\t".data) ++ (FixTestResponses.replC ("NOT_FOUND".data) ++
        FixTestResponses.fix_test_file ("\ny".data)) :=
  claim_C1.2.2 ("x\n\t".data) ("\ny".data) (by decide)

/-- C3: the rewrite is idempotent on its own output: applying
`fix_test_file` a second time, or the handler script's full rule list a
second time, leaves the result of the first application unchanged, because
rewritten text contains no occurrence of any old-format pattern. -/
theorem claim_C3 (s : List Char) :
    FixTestResponses.fix_test_file (FixTestResponses.fix_test_file s) =
      FixTestResponses.fix_test_file s ∧
    FixHandlerTests.applyRules (FixHandlerTests.applyRules s) =
      FixHandlerTests.applyRules s :=
  ⟨subAll_idem FixTestResponses.matchC_spec s,
    subAll_comp_idem FixHandlerTests.specA FixHandlerTests.specB
      FixHandlerTests.crossAB s⟩

/-- C4: a document in which no recognized old-format idiom occurs is
returned unchanged, byte for byte, by either script's rewrite; a rule with
zero matches is a silent no-op. -/
theorem claim_C4 (s : List Char) :
    (hasMatch FixTestResponses.matchC s = false →
      FixTestResponses.fix_test_file s = s) ∧
    (hasMatch FixHandlerTests.mA s = false →
      hasMatch FixHandlerTests.mB s = false →
      FixHandlerTests.applyRules s = s) := by
  constructor
  · intro h
    exact subAll_no_match h
  · intro hA hB
    unfold FixHandlerTests.applyRules
    rw [subAll_no_match hA, subAll_no_match hB]

theorem claim_C4_witness :
    FixTestResponses.fix_test_file
        (("assert.Equal(t, \"ok\", response[\"name\"])\n").data) =
      (("assert.Equal(t, \"ok\", response[\"name\"])\n").data) ∧
    FixHandlerTests.applyRules
        (("assert.Equal(t, \"ok\", response[\"name\"])\n").data) =
      (("assert.Equal(t, \"ok\", response[\"name\"])\n").data) :=
  ⟨(claim_C4 _).1 (by decide), (claim_C4 _).2 (by decide) (by decide)⟩

/-- C7: the rewrite is deterministic: equal inputs give equal outputs for
the same ordered rule list, and the decomposition of a document suffix as
an occurrence of the pattern-1 idiom (literal prefix, word-character group,
literal suffix) is unique, so rule application is well defined. -/
theorem claim_C7 :
    (∀ s t : List Char, s = t →
      FixTestResponses.fix_test_file s = FixTestResponses.fix_test_file t ∧
      FixHandlerTests.applyRules s = FixHandlerTests.applyRules t) ∧
    (∀ v w1 r1 w2 r2 : List Char, w1 ≠ [] → (∀ c ∈ w1, wchar c) →
      w2 ≠ [] → (∀ c ∈ w2, wchar c) →
      v = FixTestResponses.preC ++ (w1 ++ (FixTestResponses.sufC ++ r1)) →
      v = FixTestResponses.preC ++ (w2 ++ (FixTestResponses.sufC ++ r2)) →
      w1 = w2 ∧ r1 = r2) := by
  constructor
  · rintro s t rfl
    exact ⟨rfl, rfl⟩
  · intro v w1 r1 w2 r2 h1 hc1 h2 hc2 he1 he2
    have hm1 : FixTestResponses.matchC v = some (w1, r1) :=
      FixTestResponses.matchC_eq_some.mpr ⟨h1, hc1, he1⟩
    have hm2 : FixTestResponses.matchC v = some (w2, r2) :=
      FixTestResponses.matchC_eq_some.mpr ⟨h2, hc2, he2⟩
    rw [hm1] at hm2
    simp only [Option.some.injEq, Prod.mk.injEq] at hm2
    exact hm2

theorem claim_C7_witness :
    (FixTestResponses.fix_test_file ("abc".data) =
      FixTestResponses.fix_test_file ("abc".data) ∧
     FixHandlerTests.applyRules ("abc".data) =
      FixHandlerTests.applyRules ("abc".data)) ∧
    ("NOT_FOUND".data = "NOT_FOUND".data ∧
      ("x".data : List Char) = ("x".data : List Char)) :=
  ⟨claim_C7.1 ("abc".data) ("abc".data) rfl,
    claim_C7.2 (FixTestResponses.preC ++ ("NOT_FOUND".data ++
        (FixTestResponses.sufC ++ ("x".data)))) ("NOT_FOUND".data)
      ("x".data) ("NOT_FOUND".data) ("x".data)
      (by decide) (by decide) (by decide) (by decide) rfl rfl⟩

/-- C8: behaviour of the `main` function of `fix_test_responses.py` as
written (modelled by `mainRun`): invoked without exactly one file argument,
it prints the usage message and stops with exit status 1, without reading
or writing any file.  (This is the intent recorded in the source; the
shipped module itself cannot even be loaded, see the claim's record.) -/
theorem claim_C8 (argv : List (List Char)) (disk : Option (List Char))
    (h : argv.length ≠ 2) :
    FixTestResponses.mainRun argv disk =
      ([Ev.out FixTestResponses.usage], 1) := by
  unfold FixTestResponses.mainRun
  rw [if_pos h]

theorem claim_C8_witness :
    FixTestResponses.mainRun [("fix_test_responses.py".data)] none =
      ([Ev.out FixTestResponses.usage], 1) :=
  claim_C8 [("fix_test_responses.py".data)] none (by decide)

/-- C9: if opening or reading the input fails, the run aborts with no write
event at all; on success, the trace consists of the read, then a single
write whose payload is the fully computed transformation of the content
that was read, then the confirmation message - so no write ever precedes
completion of the transformation, in either script. -/
theorem claim_C9 :
    (∀ (argv : List (List Char)) (p c : List Char),
      Ev.writeF p c ∉ (FixTestResponses.mainRun argv none).1) ∧
    (∀ (argv : List (List Char)) (content : List Char), argv.length = 2 →
      FixTestResponses.mainRun argv (some content) =
        ([Ev.readF (argv.getD 1 []) content,
          Ev.writeF (argv.getD 1 [])
            (FixTestResponses.fix_test_file content),
          Ev.out (("Fixed ".data) ++ argv.getD 1 [])], 0)) ∧
    (∀ p c : List Char, Ev.writeF p c ∉ (FixHandlerTests.mainRun none).1) ∧
    (∀ content : List Char, FixHandlerTests.mainRun (some content) =
      ([Ev.readF FixHandlerTests.filepath content,
        Ev.writeF FixHandlerTests.filepath
          (FixHandlerTests.applyRules content),
        Ev.out (("Fixed ".data) ++ FixHandlerTests.filepath)], 0)) := by
  refine ⟨fun argv p c => ?_, fun argv content h => ?_, fun p c => ?_,
    fun content => ?_⟩
  · by_cases h : argv.length ≠ 2 <;>
      simp [FixTestResponses.mainRun, h]
  · unfold FixTestResponses.mainRun
    rw [if_neg (by omega)]
  · simp [FixHandlerTests.mainRun]
  · rfl

theorem claim_C9_witness :
    FixTestResponses.mainRun [("prog".data), ("f.go".data)]
        (some ("hello".data)) =
      ([Ev.readF ("f.go".data) ("hello".data),
        Ev.writeF ("f.go".data)
          (FixTestResponses.fix_test_file ("hello".data)),
        Ev.out (("Fixed ".data) ++ ("f.go".data))], 0) :=
  claim_C9.2.1 [("prog".data), ("f.go".data)] ("hello".data) (by decide)

/-- C10: for every input document, `fix_test_file` can differ from its
input only through the field-under-code rule (pattern 1): the function is
exactly the single substitution with `matchC`/`replC`; any document with no
pattern-1 occurrence - in particular any assertion on `response["message"]`
or `response["details"]` - passes through byte for byte; and around a
pattern-1 occurrence, the surrounding text (which may contain such
assertions) is reproduced unchanged.  The message/details helper
`replace_error_message` is defined in the source but never installed as a
rule. -/
theorem claim_C10 :
    (∀ content, FixTestResponses.fix_test_file content =
      subAll FixTestResponses.matchC FixTestResponses.replC content) ∧
    (∀ content, hasMatch FixTestResponses.matchC content = false →
      FixTestResponses.fix_test_file content = content) ∧
    (∀ u lit v : List Char, lit ≠ [] → (∀ c ∈ lit, wchar c) →
      (∀ i, i < u.length → FixTestResponses.matchC ((u ++
        (FixTestResponses.containsCodeAssert lit ++ v)).drop i) = none) →
      hasMatch FixTestResponses.matchC v = false →
      FixTestResponses.fix_test_file
          (u ++ (FixTestResponses.containsCodeAssert lit ++ v)) =
        u ++ (FixTestResponses.replC lit ++ v)) := by
  refine ⟨fun content => rfl, fun content h => subAll_no_match h,
    fun u lit v hl hlc hu hv => ?_⟩
  unfold FixTestResponses.fix_test_file
  rw [subAll_append hu]
  congr 1
  have hm : FixTestResponses.matchC
      (FixTestResponses.containsCodeAssert lit ++ v) = some (lit, v) := by
    apply FixTestResponses.matchC_eq_some.mpr
    refine ⟨hl, hlc, ?_⟩
    unfold FixTestResponses.containsCodeAssert
    simp
  rw [subAll_matched FixTestResponses.matchC_shrink hm (by
    unfold FixTestResponses.containsCodeAssert
    simp [FixTestResponses.preC])]
  rw [subAll_no_match hv]

/-- C2: scoped matching of the handler script's message rule.  A document
in which the old-format message assertion occurs but in which neither
handler pattern matches anywhere - in particular one where the assertion
is not preceded by the status/decode preamble - is left untouched; while
an occurrence that is immediately preceded by the full preamble (expected
error status constant, declare response map, unmarshal body, assert no
error, with whitespace gaps) is rewritten: the preamble is kept and the
old assertion is replaced by the wrapped-format block `NA` (success is
false, error is a map, nested message equals the same literal). -/
theorem claim_C2 :
    (∀ u v : List Char,
      hasMatch FixHandlerTests.mA (u ++ (FixHandlerTests.L5A ++ v)) =
        false →
      hasMatch FixHandlerTests.mB (u ++ (FixHandlerTests.L5A ++ v)) =
        false →
      FixHandlerTests.applyRules (u ++ (FixHandlerTests.L5A ++ v)) =
        u ++ (FixHandlerTests.L5A ++ v)) ∧
    (∀ u g v : List Char,
      FixHandlerTests.IsPreamble FixHandlerTests.L0A g →
      (∀ i, i < u.length → FixHandlerTests.mA
        ((u ++ (g ++ (FixHandlerTests.L5A ++ v))).drop i) = none) →
      hasMatch FixHandlerTests.mB
        (u ++ ((g ++ FixHandlerTests.NA) ++
          subAll FixHandlerTests.mA FixHandlerTests.rA v)) = false →
      FixHandlerTests.applyRules (u ++ (g ++ (FixHandlerTests.L5A ++ v))) =
        u ++ ((g ++ FixHandlerTests.NA) ++
          subAll FixHandlerTests.mA FixHandlerTests.rA v)) := by
  constructor
  · intro u v hA hB
    unfold FixHandlerTests.applyRules
    rw [subAll_no_match hA, subAll_no_match hB]
  · intro u g v hp hu hres
    unfold FixHandlerTests.applyRules
    have hm : FixHandlerTests.mA (g ++ (FixHandlerTests.L5A ++ v)) =
        some (g, v) :=
      (FixHandlerTests.matchH_eq_some FixHandlerTests.h5A).mpr ⟨hp, rfl⟩
    have hne : g ++ (FixHandlerTests.L5A ++ v) ≠ [] := by
      intro h
      have h2 := (List.append_eq_nil.mp h).2
      exact absurd (List.append_eq_nil.mp h2).1 (by decide)
    rw [subAll_append hu,
      subAll_matched FixHandlerTests.specA.shrink hm hne]
    have hra : FixHandlerTests.rA g = g ++ FixHandlerTests.NA := rfl
    rw [hra]
    exact subAll_no_match hres

theorem claim_C2_witness :
    FixHandlerTests.applyRules
        (("x\n".data) ++ (FixHandlerTests.L5A ++ ("\ny".data))) =
      ("x\n".data) ++ (FixHandlerTests.L5A ++ ("\ny".data)) ∧
    FixHandlerTests.applyRules (("x\n".data) ++
        (Claims.preGA ++ (FixHandlerTests.L5A ++ ("\ny".data)))) =
      ("x\n".data) ++ ((Claims.preGA ++ FixHandlerTests.NA) ++
        subAll FixHandlerTests.mA FixHandlerTests.rA ("\ny".data)) :=
  ⟨claim_C2.1 ("x\n".data) ("\ny".data) (by decide) (by decide),
   claim_C2.2 ("x\n".data) Claims.preGA ("\ny".data)
     ⟨Claims.nlG, Claims.nlG, Claims.nlG, Claims.nlG, Claims.nlG,
       ⟨by decide, by decide⟩, ⟨by decide, by decide⟩,
       ⟨by decide, by decide⟩, ⟨by decide, by decide⟩,
       ⟨by decide, by decide⟩, rfl⟩
     (by decide) (by decide)⟩

/-- C6 counterexample: the inserted continuation lines do NOT begin with
the same indentation as the original line.  `indocC6` holds one recognized
occurrence on a line indented with a single tab; in the output the first
inserted line keeps that single-tab indentation (it starts at the match
position), but the second, third and fourth inserted lines begin with the
hard-coded four-tab indentation of the replacement template: the output
contains `\n<TAB><TAB><TAB><TAB>errorInfo` and does not contain
`\n<TAB>errorInfo`. -/
theorem claim_C6_counterexample :
    FixTestResponses.fix_test_file indocC6 =
      ("\n\t".data) ++
        (FixTestResponses.replC ("NOT_FOUND".data) ++ ("\n".data)) ∧
    Claims.occursIn ("\n\tassert.Contains".data) indocC6 = true ∧
    Claims.occursIn ("\n\tassert.Equal(t, false".data)
      (FixTestResponses.fix_test_file indocC6) = true ∧
    Claims.occursIn ("\n\t\t\t\terrorInfo".data)
      (FixTestResponses.fix_test_file indocC6) = true ∧
    Claims.occursIn ("\n\terrorInfo".data)
      (FixTestResponses.fix_test_file indocC6) = false := by
  refine ⟨by decide, by decide, by decide, by decide, by decide⟩

/-- C6 amended: for every rewritten occurrence, the first inserted line
starts exactly at the position of the original occurrence (hence inherits
whatever indentation preceded it, which the rewrite reproduces byte for
byte), while the second, third and fourth inserted lines each begin with
the fixed indentation `nl4` - a newline followed by four tabs - taken
verbatim from the replacement template, independent of the original
line's indentation. -/
theorem claim_C6 :
    FixTestResponses.nl4 = ("\n\t\t\t\t".data) ∧
    (∀ w : List Char, FixTestResponses.replC w =
      FixTestResponses.errLine1 ++ (FixTestResponses.nl4 ++
        (FixTestResponses.errLine2 ++ (FixTestResponses.nl4 ++
          (FixTestResponses.errLine3 ++ (FixTestResponses.nl4 ++
            (FixTestResponses.eqOpen ++ (w ++ FixTestResponses.fixedB)))))))) ∧
    (∀ u lit v : List Char, lit ≠ [] → (∀ c ∈ lit, wchar c) →
      (∀ i, i < u.length → FixTestResponses.matchC ((u ++
        (FixTestResponses.containsCodeAssert lit ++ v)).drop i) = none) →
      FixTestResponses.fix_test_file
          (u ++ (FixTestResponses.containsCodeAssert lit ++ v)) =
        u ++ (FixTestResponses.replC lit ++
          FixTestResponses.fix_test_file v)) := by
  refine ⟨rfl, fun w => ?_, fun u lit v hl hlc hu => ?_⟩
  · simp [FixTestResponses.replC, FixTestResponses.fixedA,
      List.append_assoc]
  · unfold FixTestResponses.fix_test_file
    rw [subAll_append hu]
    congr 1
    have hm : FixTestResponses.matchC
        (FixTestResponses.containsCodeAssert lit ++ v) = some (lit, v) := by
      apply FixTestResponses.matchC_eq_some.mpr
      refine ⟨hl, hlc, ?_⟩
      unfold FixTestResponses.containsCodeAssert
      simp
    exact subAll_matched FixTestResponses.matchC_shrink hm (by
      unfold FixTestResponses.containsCodeAssert
      simp [FixTestResponses.preC])

theorem claim_C6_witness :
    FixTestResponses.nl4 = ("\n\t\t\t\t".data) ∧
    FixTestResponses.replC ("CONFLICT".data) =
      FixTestResponses.errLine1 ++ (FixTestResponses.nl4 ++
        (FixTestResponses.errLine2 ++ (FixTestResponses.nl4 ++
          (FixTestResponses.errLine3 ++ (FixTestResponses.nl4 ++
            (FixTestResponses.eqOpen ++ (("CONFLICT".data) ++
              FixTestResponses.fixedB))))))) ∧
    FixTestResponses.fix_test_file (("\n\t\t".data) ++
        (FixTestResponses.containsCodeAssert ("CONFLICT".data) ++
          ("\n".data))) =
      ("\n\t\t".data) ++ (FixTestResponses.replC ("CONFLICT".data) ++
        FixTestResponses.fix_test_file ("\n".data)) :=
  ⟨claim_C6.1, claim_C6.2.1 ("CONFLICT".data),
    claim_C6.2.2 ("\n\t\t".data) ("CONFLICT".data) ("\n".data)
      (by decide) (by decide) (by decide)⟩

theorem claim_C10_witness :
    FixTestResponses.fix_test_file
        (("assert.Equal(t, \"User not found\", response[\"message\"])\nassert.Equal(t, \"database connection error\", response[\"details\"])\n").data) =
      (("assert.Equal(t, \"User not found\", response[\"message\"])\nassert.Equal(t, \"database connection error\", response[\"details\"])\n").data) :=
  claim_C10.2.1 _ (by decide)

theorem occursIn_skip {p : List Char} (x : List Char) :
    ∀ {y : List Char}, Claims.occursIn p y = true →
      Claims.occursIn p (x ++ y) = true := by
  induction x with
  | nil => intro y h; exact h
  | cons c cs ih =>
    intro y h
    show Claims.occursIn p (c :: (cs ++ y)) = true
    simp only [Claims.occursIn, Bool.or_eq_true]
    exact Or.inr (ih h)

theorem isPrefixOf_self_append (p : List Char) :
    ∀ y : List Char, p.isPrefixOf (p ++ y) = true := by
  induction p with
  | nil => intro y; cases y <;> rfl
  | cons c cs ih =>
    intro y
    simp [List.cons_append, List.isPrefixOf, ih y]

theorem occursIn_head (p y : List Char) :
    Claims.occursIn p (p ++ y) = true := by
  cases p with
  | nil =>
    show Claims.occursIn [] y = true
    cases y with
    | nil => rfl
    | cons c cs =>
      simp only [Claims.occursIn, Bool.or_eq_true]
      exact Or.inl rfl
  | cons c cs =>
    show Claims.occursIn (c :: cs) ((c :: cs) ++ y) = true
    rw [List.cons_append]
    simp only [Claims.occursIn, Bool.or_eq_true]
    left
    rw [← List.cons_append]
    exact isPrefixOf_self_append (c :: cs) y

theorem preGA_preamble :
    FixHandlerTests.IsPreamble FixHandlerTests.L0A Claims.preGA :=
  ⟨Claims.nlG, Claims.nlG, Claims.nlG, Claims.nlG, Claims.nlG,
    ⟨by decide, by decide⟩, ⟨by decide, by decide⟩, ⟨by decide, by decide⟩,
    ⟨by decide, by decide⟩, ⟨by decide, by decide⟩, rfl⟩

/-- C5 counterexample: the handler script does not rewrite three
error-message-check blocks with distinct literals.  `docC5` consists of
three such blocks (conjunct 2 exhibits it as preamble-plus-assertion
blocks with the literals `Email already exists`, `User not found`,
`Invalid input`); running both rules yields `outC5`, in which only the
first block - the one whose whole assertion line is the hard-coded
literal of rule 1 - is rewritten, while the old-format assertions with
the other two literals survive verbatim in the output (conjuncts 3, 4):
the patterns match fixed literal lines, not a captured message. -/
theorem claim_C5_counterexample :
    FixHandlerTests.applyRules Claims.docC5 = Claims.outC5 ∧
    Claims.docC5 = ("AAA\n".data) ++ (Claims.preGA ++
      (Claims.msgAssert Claims.litE ++ (("\nBBB\n".data) ++
        (Claims.preGA ++ (Claims.msgAssert Claims.litU ++
          (("\nCCC\n".data) ++ (Claims.preGA ++
            (Claims.msgAssert Claims.litI ++ Claims.nlG)))))))) ∧
    Claims.occursIn (Claims.msgAssert Claims.litU) Claims.outC5 = true ∧
    Claims.occursIn (Claims.msgAssert Claims.litI) Claims.outC5 = true := by
  refine ⟨?_, ?_, ?_, ?_⟩
  · have hmA : FixHandlerTests.mA
        (Claims.preGA ++ (FixHandlerTests.L5A ++ Claims.rest1C5)) =
        some (Claims.preGA, Claims.rest1C5) :=
      (FixHandlerTests.matchH_eq_some FixHandlerTests.h5A).mpr
        ⟨preGA_preamble, rfl⟩
    have hu1 : ∀ i, i < (("AAA\n".data) : List Char).length →
        FixHandlerTests.mA ((("AAA\n".data) ++ (Claims.preGA ++
          (FixHandlerTests.L5A ++ Claims.rest1C5))).drop i) = none := by
      decide
    have hne1 : Claims.preGA ++ (FixHandlerTests.L5A ++ Claims.rest1C5) ≠
        [] := by
      intro h
      exact absurd (List.append_eq_nil.mp h).1 (by decide)
    have hnm1 : hasMatch FixHandlerTests.mA Claims.rest1C5 = false := by
      have e1 : Claims.rest1C5 = ("\nBBB\n".data) ++ (Claims.preGA ++
          ((Claims.msgAssert Claims.litU ++ ("\nCCC\n".data)) ++
            (Claims.preGA ++ (Claims.msgAssert Claims.litI ++
              Claims.nlG)))) := by
        simp [Claims.rest1C5, List.append_assoc]
      rw [e1]
      refine hasMatch_append_false_of (by decide) ?_
      refine hasMatch_append_false_of (by decide) ?_
      refine hasMatch_append_false_of (by decide) ?_
      refine hasMatch_append_false_of (by decide) ?_
      decide
    have hA : subAll FixHandlerTests.mA FixHandlerTests.rA Claims.docC5 =
        ("AAA\n".data) ++ ((Claims.preGA ++ FixHandlerTests.NA) ++
          Claims.rest1C5) := by
      show subAll FixHandlerTests.mA FixHandlerTests.rA
          (("AAA\n".data) ++ (Claims.preGA ++
            (FixHandlerTests.L5A ++ Claims.rest1C5))) = _
      rw [subAll_append hu1,
        subAll_matched FixHandlerTests.specA.shrink hmA hne1,
        subAll_no_match hnm1]
      rfl
    have hnmB : hasMatch FixHandlerTests.mB (("AAA\n".data) ++
        ((Claims.preGA ++ FixHandlerTests.NA) ++ Claims.rest1C5)) =
        false := by
      have e2 : ("AAA\n".data) ++ ((Claims.preGA ++ FixHandlerTests.NA) ++
          Claims.rest1C5) = ("AAA\n".data) ++ (Claims.preGA ++
            (FixHandlerTests.NA ++ (("\nBBB\n".data) ++ (Claims.preGA ++
              ((Claims.msgAssert Claims.litU ++ ("\nCCC\n".data)) ++
                (Claims.preGA ++ (Claims.msgAssert Claims.litI ++
                  Claims.nlG))))))) := by
        simp [Claims.rest1C5, List.append_assoc]
      rw [e2]
      refine hasMatch_append_false_of (by decide) ?_
      refine hasMatch_append_false_of (by decide) ?_
      refine hasMatch_append_false_of (by decide) ?_
      refine hasMatch_append_false_of (by decide) ?_
      refine hasMatch_append_false_of (by decide) ?_
      refine hasMatch_append_false_of (by decide) ?_
      refine hasMatch_append_false_of (by decide) ?_
      decide
    unfold FixHandlerTests.applyRules
    rw [hA, subAll_no_match hnmB]
    rfl
  · unfold Claims.docC5 Claims.rest1C5
    rw [show FixHandlerTests.L5A = Claims.msgAssert Claims.litE from
      by decide]
  · have e3 : Claims.outC5 = (("AAA\n".data) ++ ((Claims.preGA ++
        FixHandlerTests.NA) ++ (("\nBBB\n".data) ++ Claims.preGA))) ++
          (Claims.msgAssert Claims.litU ++ (("\nCCC\n".data) ++
            (Claims.preGA ++ (Claims.msgAssert Claims.litI ++
              Claims.nlG)))) := by
      simp [Claims.outC5, Claims.rest1C5, List.append_assoc]
    rw [e3]
    exact occursIn_skip _ (occursIn_head _ _)
  · have e4 : Claims.outC5 = (("AAA\n".data) ++ ((Claims.preGA ++
        FixHandlerTests.NA) ++ (("\nBBB\n".data) ++ (Claims.preGA ++
          (Claims.msgAssert Claims.litU ++ (("\nCCC\n".data) ++
            Claims.preGA)))))) ++ (Claims.msgAssert Claims.litI ++
              Claims.nlG) := by
      simp [Claims.outC5, Claims.rest1C5, List.append_assoc]
    rw [e4]
    exact occursIn_skip _ (occursIn_head _ _)

/-- One leftmost rewrite step of the pattern-1 rule: a prefix with no
match, a recognized occurrence, and the rewritten remainder. -/
theorem stepC (u w v : List Char) (hw : w ≠ []) (hc : ∀ c ∈ w, wchar c)
    (hu : ∀ i, i < u.length → FixTestResponses.matchC
      ((u ++ (FixTestResponses.containsCodeAssert w ++ v)).drop i) =
        none) :
    subAll FixTestResponses.matchC FixTestResponses.replC
        (u ++ (FixTestResponses.containsCodeAssert w ++ v)) =
      u ++ (FixTestResponses.replC w ++
        subAll FixTestResponses.matchC FixTestResponses.replC v) := by
  rw [subAll_append hu]
  congr 1
  have hm : FixTestResponses.matchC
      (FixTestResponses.containsCodeAssert w ++ v) = some (w, v) := by
    apply FixTestResponses.matchC_eq_some.mpr
    refine ⟨hw, hc, ?_⟩
    unfold FixTestResponses.containsCodeAssert
    simp
  exact subAll_matched FixTestResponses.matchC_shrink hm (by
    unfold FixTestResponses.containsCodeAssert
    simp [FixTestResponses.preC])

/-- C5 amended: multi-occurrence rewriting holds for the argument-taking
script's code rule, whose pattern captures the literal: a document with
three separate non-overlapping occurrences of the pattern-1 idiom, each
with its own distinct literal code string, has all three rewritten
independently, each replacement retaining its own literal.  (For the
handler script the corresponding multi-occurrence property with distinct
literals fails, since its two rules match fixed literal assertion lines;
see the counterexample.) -/
theorem claim_C5 (u1 w1 u2 w2 u3 w3 u4 : List Char)
    (h1 : w1 ≠ []) (hc1 : ∀ c ∈ w1, wchar c)
    (h2 : w2 ≠ []) (hc2 : ∀ c ∈ w2, wchar c)
    (h3 : w3 ≠ []) (hc3 : ∀ c ∈ w3, wchar c)
    (hu1 : ∀ i, i < u1.length → FixTestResponses.matchC ((u1 ++
      (FixTestResponses.containsCodeAssert w1 ++ (u2 ++
        (FixTestResponses.containsCodeAssert w2 ++ (u3 ++
          (FixTestResponses.containsCodeAssert w3 ++
            u4)))))).drop i) = none)
    (hu2 : ∀ i, i < u2.length → FixTestResponses.matchC ((u2 ++
      (FixTestResponses.containsCodeAssert w2 ++ (u3 ++
        (FixTestResponses.containsCodeAssert w3 ++ u4)))).drop i) = none)
    (hu3 : ∀ i, i < u3.length → FixTestResponses.matchC ((u3 ++
      (FixTestResponses.containsCodeAssert w3 ++ u4)).drop i) = none)
    (hu4 : hasMatch FixTestResponses.matchC u4 = false) :
    FixTestResponses.fix_test_file (u1 ++
        (FixTestResponses.containsCodeAssert w1 ++ (u2 ++
          (FixTestResponses.containsCodeAssert w2 ++ (u3 ++
            (FixTestResponses.containsCodeAssert w3 ++ u4)))))) =
      u1 ++ (FixTestResponses.replC w1 ++ (u2 ++
        (FixTestResponses.replC w2 ++ (u3 ++
          (FixTestResponses.replC w3 ++ u4))))) := by
  unfold FixTestResponses.fix_test_file
  rw [stepC u1 w1 _ h1 hc1 hu1, stepC u2 w2 _ h2 hc2 hu2,
    stepC u3 w3 _ h3 hc3 hu3, subAll_no_match hu4]

theorem claim_C5_witness :
    FixTestResponses.fix_test_file (("a\n\t".data) ++
        (FixTestResponses.containsCodeAssert ("CONFLICT".data) ++
          (("\nb\n".data) ++
            (FixTestResponses.containsCodeAssert ("NOT_FOUND".data) ++
              (("\nc\n".data) ++
                (FixTestResponses.containsCodeAssert ("INVALID".data) ++
                  ("\nd\n".data))))))) =
      ("a\n\t".data) ++ (FixTestResponses.replC ("CONFLICT".data) ++
        (("\nb\n".data) ++ (FixTestResponses.replC ("NOT_FOUND".data) ++
          (("\nc\n".data) ++ (FixTestResponses.replC ("INVALID".data) ++
            ("\nd\n".data)))))) :=
  claim_C5 ("a\n\t".data) ("CONFLICT".data) ("\nb\n".data)
    ("NOT_FOUND".data) ("\nc\n".data) ("INVALID".data) ("\nd\n".data)
    (by decide) (by decide) (by decide) (by decide) (by decide)
    (by decide) (by decide) (by decide) (by decide) (by decide)
